import Mathlib

/-!
Verification of the cache-aware memory scrubber.

The definitions below are a shallow embedding of the Rust source
(`src/lib.rs`).  Addresses (`*const u8`, `usize`) are modelled as `Nat`;
the cache-description trait `BaseCacheDesc` is modelled by a structure
carrying the two configured widths, with the derived quantities
(`cacheline_size`, `cache_lines`, `size_in_cachelines`, `cache_index`)
defined exactly as in the trait's default methods.  The iterator loops of
`ScrubAreaIterator::next` and `MemoryScrubberIterator::next` are embedded
with explicit fuel equal to the bound on the number of loop iterations;
fuel exhaustion corresponds to states the Rust code can never reach.
The restart loop inside `MemoryScrubber::scrub` can genuinely diverge in
Rust (if a fresh iterator yields nothing), which the model represents by
`Option`: `none` marks a non-terminating execution.
-/

namespace MemScrub

/-- Addresses, as in the Rust `type Addr = usize`. -/
abbrev Addr := Nat

/-- Embedding of `ScrubArea { start: *const u8, end: *const u8 }`. -/
structure ScrubArea where
  start : Addr
  «end» : Addr
deriving DecidableEq

/-- Embedding of a `BaseCacheDesc` implementation: the two configured
widths.  `cachelineWidth` is the value of `cacheline_width()` (log2 of the
cache-line byte count), `cacheIndexWidth` the value of
`cache_index_width()`. -/
structure CacheDesc where
  cachelineWidth : Nat
  cacheIndexWidth : Nat
deriving DecidableEq

/-- Rust `cacheline_size(): 1 << self.cacheline_width()`. -/
def CacheDesc.cachelineSize (c : CacheDesc) : Nat :=
  1 <<< c.cachelineWidth

/-- Rust `cache_lines(): 1 << self.cache_index_width()`. -/
def CacheDesc.cacheLines (c : CacheDesc) : Nat :=
  1 <<< c.cacheIndexWidth

/-- Rust `size_in_cachelines`: `(end >> w) - (start >> w) + 1` in `usize`
arithmetic.  When the subtraction does not underflow this is the plain
difference plus one (for genuine `usize` addresses the `+ 1` cannot wrap
there).  When it underflows — regions with `end >> w < start >> w`, which
validation accepts — a debug build of the source panics and a release
build wraps modulo `2^64`; the wrapped value is modelled here, so a
region one line "below" its start gets size `0` and is never emitted,
exactly as in a release build. -/
def CacheDesc.sizeInCachelines (c : CacheDesc) (a : ScrubArea) : Nat :=
  if a.«end» >>> c.cachelineWidth < a.start >>> c.cachelineWidth then
    (((a.«end» >>> c.cachelineWidth) + 2 ^ 64 -
        (a.start >>> c.cachelineWidth)) % 2 ^ 64 + 1) % 2 ^ 64
  else
    (a.«end» >>> c.cachelineWidth) - (a.start >>> c.cachelineWidth) + 1

/-- Rust `cache_index`: `(p >> width) & ((1 << cache_index_width) - 1)`. -/
def CacheDesc.cacheIndex (c : CacheDesc) (p : Addr) : Nat :=
  (p >>> c.cachelineWidth) &&& ((1 <<< c.cacheIndexWidth) - 1)

/-- Embedding of the Rust `Error` enum. -/
inductive Error where
  | UnalignedStart
  | UnalignedEnd
  | UnalignedSize
  | NoScrubAreas
  | EmptyScrubArea
  | IteratorFailed
deriving DecidableEq

/-- State of a `ScrubAreaIterator`: its `index` and `offset` fields. -/
structure ScrubAreaIterState where
  index : Nat
  offset : Nat
deriving DecidableEq

/-- The loop body of `ScrubAreaIterator::next`.  Each pass either returns
or increments `index`, so `cache_lines + 1 - index` passes always
suffice; the fuel only runs out on states the Rust iterator never
reaches. -/
def scrubAreaNextGo (c : CacheDesc) (a : ScrubArea) :
    Nat → Nat → Nat → Option (Addr × ScrubAreaIterState)
  | 0, _, _ => none
  | fuel+1, index, offset =>
    if index = c.cacheLines then
      none
    else
      let off := index + offset
      if off < c.sizeInCachelines a then
        some (a.start + off * c.cachelineSize, ⟨index, offset + c.cacheLines⟩)
      else
        scrubAreaNextGo c a fuel (index + 1) 0

/-- Embedding of `ScrubAreaIterator::next`.  The emitted item is the byte
address of the returned cache-line pointer: `start.offset(off)` on a
pointer to a cache-line-sized type is `start + off * cacheline_size`. -/
def scrubAreaNext (c : CacheDesc) (a : ScrubArea) (s : ScrubAreaIterState) :
    Option (Addr × ScrubAreaIterState) :=
  scrubAreaNextGo c a (c.cacheLines + 1 - s.index) s.index s.offset

/-- State of a `MemoryScrubberIterator`: its `index` into the region list
and the optional inner `ScrubAreaIterator`. -/
structure MemoryScrubberIterState where
  index : Nat
  inner : Option ScrubAreaIterState
deriving DecidableEq

/-- The loop body of `MemoryScrubberIterator::next`.  Each pass either
returns or increments `index`, so `areas.length + 1 - index` passes
always suffice. -/
def memoryScrubberNextGo (c : CacheDesc) (areas : List ScrubArea) :
    Nat → Nat → Option ScrubAreaIterState → Option (Addr × MemoryScrubberIterState)
  | 0, _, _ => none
  | fuel+1, index, inner =>
    if index = areas.length then
      none
    else
      match areas[index]? with
      | none => none
      | some a =>
        match scrubAreaNext c a (inner.getD ⟨0, 0⟩) with
        | some ps => some (ps.1, ⟨index, some ps.2⟩)
        | none => memoryScrubberNextGo c areas fuel (index + 1) none

/-- Embedding of `MemoryScrubberIterator::next`. -/
def memoryScrubberNext (c : CacheDesc) (areas : List ScrubArea)
    (s : MemoryScrubberIterState) : Option (Addr × MemoryScrubberIterState) :=
  memoryScrubberNextGo c areas (areas.length + 1 - s.index) s.index s.inner

/-- The per-region validation performed by `MemoryScrubber::new` for each
`scrub_area`, with the checks in the source's order: emptiness first,
then start alignment, then end alignment. -/
def checkScrubArea (c : CacheDesc) (a : ScrubArea) : Except Error Unit :=
  if a.start = a.«end» then
    .error .EmptyScrubArea
  else if a.start &&& (c.cachelineSize - 1) ≠ 0 then
    .error .UnalignedStart
  else if a.«end» &&& (c.cachelineSize - 1) ≠ c.cachelineSize - 1 then
    .error .UnalignedEnd
  else
    .ok ()

/-- The validation loop of `MemoryScrubber::new` over the region list. -/
def checkScrubAreas (c : CacheDesc) : List ScrubArea → Except Error Unit
  | [] => .ok ()
  | a :: rest =>
    match checkScrubArea c a with
    | .error e => .error e
    | .ok _ => checkScrubAreas c rest

/-- Embedding of `MemoryScrubber::new`: the validation it performs.  The
constructed scrubber itself is just the (unchanged) inputs plus an empty
iterator, so only the `Result`'s error component needs modelling. -/
def memoryScrubberNew (c : CacheDesc) (areas : List ScrubArea) : Except Error Unit :=
  if areas.length = 0 then
    .error .NoScrubAreas
  else
    checkScrubAreas c areas

/-- One pass of the restart loop inside `MemoryScrubber::scrub`: take the
next address from the current iterator, constructing a fresh
`MemoryScrubberIterator` when there is none or when the current one is
exhausted.  `none` means the Rust loop never exits: that happens exactly
when a freshly constructed iterator immediately returns `None`. -/
def scrubStep (c : CacheDesc) (areas : List ScrubArea)
    (st : Option MemoryScrubberIterState) :
    Option (Addr × Option MemoryScrubberIterState) :=
  match st with
  | some s =>
    match memoryScrubberNext c areas s with
    | some ps => some (ps.1, some ps.2)
    | none =>
      (memoryScrubberNext c areas ⟨0, none⟩).map fun ps => (ps.1, some ps.2)
  | none =>
    (memoryScrubberNext c areas ⟨0, none⟩).map fun ps => (ps.1, some ps.2)

/-- The `for _i in 0..cachelines_to_scrub` loop of `MemoryScrubber::scrub`:
collects the addresses passed to `read_cacheline` and the final iterator
state.  `none` propagates divergence of the restart loop. -/
def scrubLines (c : CacheDesc) (areas : List ScrubArea) :
    Nat → Option MemoryScrubberIterState →
    Option (List Addr × Option MemoryScrubberIterState)
  | 0, st => some ([], st)
  | n+1, st =>
    match scrubStep c areas st with
    | none => none
    | some (p, st') =>
      (scrubLines c areas n st').map fun r => (p :: r.1, r.2)

instance {ε α : Type} [DecidableEq ε] [DecidableEq α] :
    DecidableEq (Except ε α) := fun x y =>
  match x, y with
  | .ok a, .ok b =>
    if h : a = b then isTrue (by rw [h]) else
      isFalse (by intro hc; cases hc; exact h rfl)
  | .error a, .error b =>
    if h : a = b then isTrue (by rw [h]) else
      isFalse (by intro hc; cases hc; exact h rfl)
  | .ok _, .error _ => isFalse (by intro hc; cases hc)
  | .error _, .ok _ => isFalse (by intro hc; cases hc)

/-- Observable outcome of one `MemoryScrubber::scrub` call: the returned
`Result`, the addresses passed to `read_cacheline` (in order), and the
iterator state afterwards. -/
structure ScrubOutcome where
  status : Except Error Unit
  touches : List Addr
  state : Option MemoryScrubberIterState
deriving DecidableEq

/-- Embedding of `MemoryScrubber::scrub`.  On a misaligned byte count it
returns `UnalignedSize` before touching anything or changing state.
Otherwise it scrubs `n >> cacheline_width` lines.  `none` marks the
diverging executions of the restart loop. -/
def scrub (c : CacheDesc) (areas : List ScrubArea) (n : Nat)
    (st : Option MemoryScrubberIterState) : Option ScrubOutcome :=
  if n &&& (c.cachelineSize - 1) ≠ 0 then
    some ⟨.error .UnalignedSize, [], st⟩
  else
    (scrubLines c areas (n >>> c.cachelineWidth) st).map fun r =>
      ⟨.ok (), r.1, r.2⟩

/-- The loop of `BaseAutoScrub::autoscrub`: repeatedly ask the
`BaseAutoScrubDesc` for a byte count (modelled as the sequence `desc` of
its successive return values), stop with `Ok` on zero, otherwise scrub
and propagate errors.  The loop itself need not terminate, hence fuel;
`none` covers both fuel exhaustion and a diverging `scrub`. -/
def autoscrubLoop (c : CacheDesc) (areas : List ScrubArea) (desc : Nat → Nat) :
    Nat → Option MemoryScrubberIterState → Nat →
    Option (Except Error Nat × List Addr)
  | 0, _, _ => none
  | fuel+1, st, i =>
    let n := desc i
    if n = 0 then
      some (.ok n, [])
    else
      match scrub c areas n st with
      | none => none
      | some o =>
        match o.status with
        | .error e => some (.error e, o.touches)
        | .ok _ =>
          (autoscrubLoop c areas desc fuel o.state (i + 1)).map fun r =>
            (r.1, o.touches ++ r.2)

/-- Embedding of `BaseAutoScrub::autoscrub`: validate via
`MemoryScrubber::new`, then run the policy loop from a fresh scrubber. -/
def autoscrub (c : CacheDesc) (areas : List ScrubArea) (desc : Nat → Nat)
    (fuel : Nat) : Option (Except Error Nat × List Addr) :=
  match memoryScrubberNew c areas with
  | .error e => some (.error e, [])
  | .ok _ => autoscrubLoop c areas desc fuel none 0

/-- Drive `ScrubAreaIterator::next` repeatedly, collecting emissions. -/
def runScrubArea (c : CacheDesc) (a : ScrubArea) :
    Nat → ScrubAreaIterState → List Addr
  | 0, _ => []
  | fuel+1, s =>
    match scrubAreaNext c a s with
    | none => []
    | some ps => ps.1 :: runScrubArea c a fuel ps.2

/-- The complete emission of a `ScrubAreaIterator` iterated from its
initial state `(index = 0, offset = 0)` until it returns `None`.  The
iterator emits at most `size_in_cachelines` addresses, so that much fuel
plus one is always enough. -/
def scrubAreaIterAll (c : CacheDesc) (a : ScrubArea) : List Addr :=
  runScrubArea c a (c.sizeInCachelines a + 1) ⟨0, 0⟩

/-- Total number of cache lines over all regions. -/
def totalLines (c : CacheDesc) (areas : List ScrubArea) : Nat :=
  (areas.map fun a => c.sizeInCachelines a).sum

/-- Drive `MemoryScrubberIterator::next` repeatedly, collecting
emissions. -/
def runMemoryScrubber (c : CacheDesc) (areas : List ScrubArea) :
    Nat → MemoryScrubberIterState → List Addr
  | 0, _ => []
  | fuel+1, s =>
    match memoryScrubberNext c areas s with
    | none => []
    | some ps => ps.1 :: runMemoryScrubber c areas fuel ps.2

/-- The complete emission of a fresh `MemoryScrubberIterator` iterated
until it returns `None`. -/
def memoryScrubberIterAll (c : CacheDesc) (areas : List ScrubArea) : List Addr :=
  runMemoryScrubber c areas (totalLines c areas + 1) ⟨0, none⟩

/-! ### Analytic description of the emission order

`groupTail c a k o` is the list of line offsets the iterator still emits
while in pass `k` with current `offset` `o`: the arithmetic progression
`k+o, k+o+L, k+o+2·L, …` of all values below `size_in_cachelines`.
`restGroups c a k` is the concatenation of the full passes `k, k+1, …,
L-1`.  These lists are derived from the iterator's loop structure and are
proved below to coincide with what the embedded iterator emits. -/

/-- Number of offsets of the form `k + o + j·L` below `size_in_cachelines`. -/
def groupCount (c : CacheDesc) (a : ScrubArea) (k o : Nat) : Nat :=
  (c.sizeInCachelines a - (k + o) + (c.cacheLines - 1)) / c.cacheLines

/-- Offsets still to be emitted in the current pass. -/
def groupTail (c : CacheDesc) (a : ScrubArea) (k o : Nat) : List Nat :=
  (List.range (groupCount c a k o)).map fun j => k + o + j * c.cacheLines

/-- Offsets emitted by the full passes `k, k+1, …, cache_lines - 1`. -/
def restGroups (c : CacheDesc) (a : ScrubArea) (k : Nat) : List Nat :=
  (List.range (c.cacheLines - k)).flatMap fun d => groupTail c a (k + d) 0

/-- Offsets still to be emitted from iterator state `(k, o)`. -/
def remainingOffsets (c : CacheDesc) (a : ScrubArea) (k o : Nat) : List Nat :=
  if k < c.cacheLines then groupTail c a k o ++ restGroups c a (k + 1) else []

/-- All line offsets of a region, in emission order. -/
def areaOffsets (c : CacheDesc) (a : ScrubArea) : List Nat :=
  restGroups c a 0

/-- All emitted addresses of a region, in emission order. -/
def areaAddrs (c : CacheDesc) (a : ScrubArea) : List Addr :=
  (areaOffsets c a).map fun m => a.start + m * c.cachelineSize

/-- The `k`-th emitted group of addresses of a region (those of the pass
with `index = k`). -/
def areaGroup (c : CacheDesc) (a : ScrubArea) (k : Nat) : List Addr :=
  (groupTail c a k 0).map fun m => a.start + m * c.cachelineSize

/-! ### The multi-region iterator -/

/-- Addresses still to be emitted by a `MemoryScrubberIterator` in state
`s`: the rest of the current region's emission, then the full emissions
of the remaining regions. -/
def remainingMS (c : CacheDesc) (areas : List ScrubArea)
    (s : MemoryScrubberIterState) : List Addr :=
  match s.inner with
  | none => (areas.drop s.index).flatMap fun a => areaAddrs c a
  | some t =>
    match areas[s.index]? with
    | none => []
    | some a =>
      ((remainingOffsets c a t.index t.offset).map
          fun m => a.start + m * c.cachelineSize) ++
        (areas.drop (s.index + 1)).flatMap fun x => areaAddrs c x

/-- The states a `MemoryScrubberIterator` can reach. -/
def wfMS (c : CacheDesc) (areas : List ScrubArea)
    (s : MemoryScrubberIterState) : Prop :=
  s.index ≤ areas.length ∧
    ∀ t, s.inner = some t → s.index < areas.length ∧ t.index ≤ c.cacheLines

/-! ### The scrubber's persistent iterator, restart and wrap-around -/

/-- Relation between a scrubber iterator state (`None` or a live
iterator) and a position `j` in the full emission cycle: the addresses
still to come before the next wrap are exactly the cycle's suffix from
`j`. -/
def stRem (c : CacheDesc) (areas : List ScrubArea)
    (st : Option MemoryScrubberIterState) (j : Nat) : Prop :=
  j ≤ (areas.flatMap fun a => areaAddrs c a).length ∧
    match st with
    | none => j = 0 ∨ j = (areas.flatMap fun a => areaAddrs c a).length
    | some s => wfMS c areas s ∧
        remainingMS c areas s = (areas.flatMap fun a => areaAddrs c a).drop j

/-- Iterator states of the scrubber reachable from a fresh scrubber by a
sequence of (aligned, successful) `scrub` calls. -/
def reachableState (c : CacheDesc) (areas : List ScrubArea)
    (st : Option MemoryScrubberIterState) : Prop :=
  ∃ k l, scrubLines c areas k none = some (l, st)

/-- Reference semantics for a sequence of successful `scrub` calls with
the given byte counts: the concatenation of their touch sequences,
threading the iterator state. -/
def scrubCalls (c : CacheDesc) (areas : List ScrubArea) :
    List Nat → Option MemoryScrubberIterState →
    Option (List Addr × Option MemoryScrubberIterState)
  | [], st => some ([], st)
  | n :: ns, st =>
    match scrub c areas n st with
    | none => none
    | some o =>
      match o.status with
      | .error _ => none
      | .ok _ => (scrubCalls c areas ns o.state).map fun r =>
          (o.touches ++ r.1, r.2)

theorem cachelineSize_eq (c : CacheDesc) : c.cachelineSize = 2 ^ c.cachelineWidth := by
  rw [CacheDesc.cachelineSize, Nat.shiftLeft_eq, one_mul]

theorem cacheLines_eq (c : CacheDesc) : c.cacheLines = 2 ^ c.cacheIndexWidth := by
  rw [CacheDesc.cacheLines, Nat.shiftLeft_eq, one_mul]

theorem cachelineSize_pos (c : CacheDesc) : 0 < c.cachelineSize := by
  rw [cachelineSize_eq]; exact Nat.pos_pow_of_pos _ (by norm_num)

theorem cacheLines_pos (c : CacheDesc) : 0 < c.cacheLines := by
  rw [cacheLines_eq]; exact Nat.pos_pow_of_pos _ (by norm_num)

theorem sizeInCachelines_eq (c : CacheDesc) (a : ScrubArea)
    (h : a.start >>> c.cachelineWidth ≤ a.«end» >>> c.cachelineWidth) :
    c.sizeInCachelines a =
      (a.«end» >>> c.cachelineWidth) - (a.start >>> c.cachelineWidth) + 1 := by
  rw [CacheDesc.sizeInCachelines, if_neg (Nat.not_lt.2 h)]

theorem shiftRight_le_shiftRight {x y : Nat} (w : Nat) (h : x ≤ y) :
    x >>> w ≤ y >>> w := by
  rw [Nat.shiftRight_eq_div_pow, Nat.shiftRight_eq_div_pow]
  exact Nat.div_le_div_right h

theorem sizeInCachelines_pos_of_lt (c : CacheDesc) (a : ScrubArea)
    (h : a.start < a.«end») : 0 < c.sizeInCachelines a := by
  rw [sizeInCachelines_eq c a
    (shiftRight_le_shiftRight c.cachelineWidth (Nat.le_of_lt h))]
  omega

/-- Unfolding equation for `scrubAreaNext` on the states the iterator can
reach (`index ≤ cache_lines`): the fuel is then always sufficient. -/
theorem scrubAreaNext_eq (c : CacheDesc) (a : ScrubArea) {k : Nat} (o : Nat)
    (hk : k ≤ c.cacheLines) :
    scrubAreaNext c a ⟨k, o⟩ =
      if k = c.cacheLines then none
      else if k + o < c.sizeInCachelines a then
        some (a.start + (k + o) * c.cachelineSize, ⟨k, o + c.cacheLines⟩)
      else
        scrubAreaNext c a ⟨k + 1, 0⟩ := by
  have h1 : c.cacheLines + 1 - k = (c.cacheLines - k) + 1 := by omega
  have h2 : c.cacheLines + 1 - (k + 1) = c.cacheLines - k := by omega
  simp only [scrubAreaNext, h1, h2, scrubAreaNextGo]

theorem groupCount_eq_zero (c : CacheDesc) (a : ScrubArea) {k o : Nat}
    (h : c.sizeInCachelines a ≤ k + o) : groupCount c a k o = 0 := by
  have hL := cacheLines_pos c
  rw [groupCount]
  have hz : c.sizeInCachelines a - (k + o) = 0 := by omega
  rw [hz]
  exact Nat.div_eq_of_lt (by omega)

theorem groupCount_succ (c : CacheDesc) (a : ScrubArea) {k o : Nat}
    (h : k + o < c.sizeInCachelines a) :
    groupCount c a k o = groupCount c a k (o + c.cacheLines) + 1 := by
  have hL := cacheLines_pos c
  set S := c.sizeInCachelines a with hS
  set L := c.cacheLines with hLdef
  rw [groupCount, groupCount, ← hS, ← hLdef]
  have hD : 1 ≤ S - (k + o) := by omega
  have e1 : S - (k + o) + (L - 1) = (S - (k + o) - 1) + L := by omega
  rw [e1, Nat.add_div_right _ hL]
  by_cases hDL : L ≤ S - (k + o)
  · have e2 : S - (k + (o + L)) + (L - 1) = S - (k + o) - 1 := by omega
    rw [e2]
  · have e2 : S - (k + (o + L)) + (L - 1) = L - 1 := by omega
    rw [e2, Nat.div_eq_of_lt (by omega), Nat.div_eq_of_lt (by omega)]

theorem groupTail_cons (c : CacheDesc) (a : ScrubArea) {k o : Nat}
    (h : k + o < c.sizeInCachelines a) :
    groupTail c a k o = (k + o) :: groupTail c a k (o + c.cacheLines) := by
  rw [groupTail, groupTail, groupCount_succ c a h, List.range_succ_eq_map,
    List.map_cons, List.map_map]
  have hf : ((fun j => k + o + j * c.cacheLines) ∘ Nat.succ) =
      fun j => k + (o + c.cacheLines) + j * c.cacheLines := by
    funext j
    simp only [Function.comp_apply, Nat.succ_eq_add_one]
    ring
  rw [hf]
  simp

theorem groupTail_nil (c : CacheDesc) (a : ScrubArea) {k o : Nat}
    (h : c.sizeInCachelines a ≤ k + o) : groupTail c a k o = [] := by
  rw [groupTail, groupCount_eq_zero c a h, List.range_zero, List.map_nil]

theorem restGroups_eq (c : CacheDesc) (a : ScrubArea) (k : Nat) :
    restGroups c a k = remainingOffsets c a k 0 := by
  by_cases hk : k < c.cacheLines
  · have h1 : c.cacheLines - k = (c.cacheLines - (k + 1)) + 1 := by omega
    rw [restGroups, remainingOffsets, if_pos hk, h1, List.range_succ_eq_map,
      List.flatMap_cons, List.flatMap_map, restGroups]
    have hf : (fun d : Nat => groupTail c a (k + d.succ) 0) =
        fun d => groupTail c a (k + 1 + d) 0 := by
      funext d
      congr 1
      omega
    rw [hf, Nat.add_zero]
  · rw [restGroups, remainingOffsets, if_neg hk]
    have h1 : c.cacheLines - k = 0 := by omega
    rw [h1, List.range_zero, List.flatMap_nil]

theorem remainingOffsets_cons (c : CacheDesc) (a : ScrubArea) {k o : Nat}
    (hk : k < c.cacheLines) (h : k + o < c.sizeInCachelines a) :
    remainingOffsets c a k o = (k + o) :: remainingOffsets c a k (o + c.cacheLines) := by
  rw [remainingOffsets, remainingOffsets, if_pos hk, if_pos hk,
    groupTail_cons c a h, List.cons_append]

theorem remainingOffsets_skip (c : CacheDesc) (a : ScrubArea) {k o : Nat}
    (hk : k < c.cacheLines) (h : c.sizeInCachelines a ≤ k + o) :
    remainingOffsets c a k o = remainingOffsets c a (k + 1) 0 := by
  rw [remainingOffsets, if_pos hk, groupTail_nil c a h, List.nil_append,
    restGroups_eq]

/-- Step characterisation of `ScrubAreaIterator::next`: from a reachable
state it returns `None` exactly when no offsets remain, and otherwise
emits the head of the remaining-offsets list, moving to a state whose
remaining offsets are the tail. -/
theorem scrubAreaNext_spec (c : CacheDesc) (a : ScrubArea) :
    ∀ n k o, c.cacheLines - k ≤ n → k ≤ c.cacheLines →
      (remainingOffsets c a k o = [] → scrubAreaNext c a ⟨k, o⟩ = none) ∧
      (∀ m rest, remainingOffsets c a k o = m :: rest →
        ∃ k' o', scrubAreaNext c a ⟨k, o⟩ =
            some (a.start + m * c.cachelineSize, ⟨k', o'⟩) ∧
          k' ≤ c.cacheLines ∧ remainingOffsets c a k' o' = rest) := by
  intro n
  induction n with
  | zero =>
    intro k o hn hk
    have hkL : k = c.cacheLines := by omega
    subst hkL
    rw [remainingOffsets, if_neg (lt_irrefl _)]
    refine ⟨fun _ => ?_, fun m rest hmr => by cases hmr⟩
    rw [scrubAreaNext_eq c a o hk, if_pos rfl]
  | succ n ih =>
    intro k o hn hk
    by_cases hkL : k = c.cacheLines
    · subst hkL
      rw [remainingOffsets, if_neg (lt_irrefl _)]
      refine ⟨fun _ => ?_, fun m rest hmr => by cases hmr⟩
      rw [scrubAreaNext_eq c a o hk, if_pos rfl]
    · have hk' : k < c.cacheLines := lt_of_le_of_ne hk hkL
      by_cases hlt : k + o < c.sizeInCachelines a
      · rw [remainingOffsets_cons c a hk' hlt]
        constructor
        · intro hmr
          cases hmr
        · intro m rest hmr
          injection hmr with hm hrest
          refine ⟨k, o + c.cacheLines, ?_, hk, hrest⟩
          rw [scrubAreaNext_eq c a o hk, if_neg hkL, if_pos hlt, hm]
      · rw [remainingOffsets_skip c a hk' (by omega)]
        have hstep : scrubAreaNext c a ⟨k, o⟩ = scrubAreaNext c a ⟨k + 1, 0⟩ := by
          rw [scrubAreaNext_eq c a o hk, if_neg hkL, if_neg hlt]
        rw [hstep]
        exact ih (k + 1) 0 (by omega) (by omega)

/-- Running the embedded `ScrubAreaIterator` from a reachable state with
sufficient fuel yields exactly the remaining offsets, as addresses. -/
theorem runScrubArea_eq (c : CacheDesc) (a : ScrubArea) :
    ∀ fuel k o, k ≤ c.cacheLines → (remainingOffsets c a k o).length < fuel →
      runScrubArea c a fuel ⟨k, o⟩ =
        (remainingOffsets c a k o).map fun m => a.start + m * c.cachelineSize := by
  intro fuel
  induction fuel with
  | zero => intro k o _ hlen; omega
  | succ fuel ih =>
    intro k o hk hlen
    cases hrem : remainingOffsets c a k o with
    | nil =>
      have hnone := (scrubAreaNext_spec c a (c.cacheLines - k) k o le_rfl hk).1 hrem
      rw [runScrubArea, hnone, List.map_nil]
    | cons m rest =>
      obtain ⟨k', o', hnext, hk', hrest⟩ :=
        (scrubAreaNext_spec c a (c.cacheLines - k) k o le_rfl hk).2 m rest hrem
      have hlen' : (remainingOffsets c a k' o').length < fuel := by
        rw [hrem] at hlen
        rw [hrest]
        simp only [List.length_cons] at hlen
        omega
      rw [runScrubArea, hnext]
      show (a.start + m * c.cachelineSize) :: runScrubArea c a fuel ⟨k', o'⟩ =
        (m :: rest).map fun x => a.start + x * c.cachelineSize
      rw [ih k' o' hk' hlen', hrest, List.map_cons]

theorem lt_groupCount_iff (c : CacheDesc) (a : ScrubArea) {k j : Nat} :
    j < groupCount c a k 0 ↔ k + j * c.cacheLines < c.sizeInCachelines a := by
  have hL := cacheLines_pos c
  have hjL : 0 ≤ j * c.cacheLines := Nat.zero_le _
  rw [groupCount]
  by_cases hkS : c.sizeInCachelines a ≤ k + 0
  · have hz : c.sizeInCachelines a - (k + 0) = 0 := by omega
    rw [hz, Nat.zero_add, Nat.div_eq_of_lt (by omega)]
    constructor
    · intro h
      exact absurd h (Nat.not_lt_zero _)
    · intro h
      exfalso
      omega
  · have e1 : c.sizeInCachelines a - (k + 0) + (c.cacheLines - 1) =
      (c.sizeInCachelines a - (k + 0) - 1) + c.cacheLines := by omega
    rw [e1, Nat.add_div_right _ hL, Nat.lt_succ_iff, Nat.le_div_iff_mul_le hL]
    constructor <;> intro h <;> omega

theorem groupTail_nodup (c : CacheDesc) (a : ScrubArea) (k o : Nat) :
    (groupTail c a k o).Nodup := by
  have hL := cacheLines_pos c
  rw [groupTail]
  refine (List.nodup_range _).map ?_
  intro x y hxy
  have h2 : x * c.cacheLines = y * c.cacheLines := Nat.add_left_cancel hxy
  exact Nat.eq_of_mul_eq_mul_right hL h2

theorem mem_groupTail_iff (c : CacheDesc) (a : ScrubArea) {k : Nat}
    (hk : k < c.cacheLines) {m : Nat} :
    m ∈ groupTail c a k 0 ↔
      m % c.cacheLines = k ∧ m < c.sizeInCachelines a := by
  have hL := cacheLines_pos c
  rw [groupTail, List.mem_map]
  constructor
  · rintro ⟨j, hj, rfl⟩
    rw [List.mem_range] at hj
    refine ⟨?_, ?_⟩
    · simp [Nat.add_mul_mod_self_right, Nat.mod_eq_of_lt hk]
    · have := (lt_groupCount_iff c a).1 hj
      omega
  · rintro ⟨hmod, hlt⟩
    have h1 := Nat.mod_add_div m c.cacheLines
    rw [hmod] at h1
    have h2 : k + (m / c.cacheLines) * c.cacheLines = m := by
      rw [Nat.mul_comm]
      exact h1
    refine ⟨m / c.cacheLines, ?_, by omega⟩
    rw [List.mem_range, lt_groupCount_iff, h2]
    exact hlt

theorem count_groupTail (c : CacheDesc) (a : ScrubArea) {k : Nat}
    (hk : k < c.cacheLines) (m : Nat) :
    (groupTail c a k 0).count m =
      if m % c.cacheLines = k ∧ m < c.sizeInCachelines a then 1 else 0 := by
  by_cases hmem : m ∈ groupTail c a k 0
  · rw [List.count_eq_one_of_mem (groupTail_nodup c a k 0) hmem,
      if_pos ((mem_groupTail_iff c a hk).1 hmem)]
  · rw [List.count_eq_zero_of_not_mem hmem,
      if_neg fun hc => hmem ((mem_groupTail_iff c a hk).2 hc)]

theorem count_restGroups (c : CacheDesc) (a : ScrubArea) (m : Nat) :
    ∀ n k, c.cacheLines - k ≤ n →
      (restGroups c a k).count m =
        if k ≤ m % c.cacheLines ∧ m < c.sizeInCachelines a then 1 else 0 := by
  have hL := cacheLines_pos c
  have hmL : m % c.cacheLines < c.cacheLines := Nat.mod_lt m hL
  intro n
  induction n with
  | zero =>
    intro k hn
    have h0 : c.cacheLines - k = 0 := by omega
    rw [restGroups, h0, List.range_zero, List.flatMap_nil, List.count_nil,
      if_neg (by omega)]
  | succ n ih =>
    intro k hn
    by_cases hk : k < c.cacheLines
    · rw [restGroups_eq, remainingOffsets, if_pos hk, List.count_append,
        count_groupTail c a hk, ih (k + 1) (by omega)]
      split_ifs <;> omega
    · have h0 : c.cacheLines - k = 0 := by omega
      rw [restGroups, h0, List.range_zero, List.flatMap_nil, List.count_nil,
        if_neg (by omega)]

theorem count_range_eq (n m : Nat) :
    (List.range n).count m = if m < n then 1 else 0 := by
  by_cases h : m < n
  · rw [List.count_eq_one_of_mem (List.nodup_range n) (List.mem_range.2 h), if_pos h]
  · rw [List.count_eq_zero_of_not_mem fun hc => h (List.mem_range.1 hc), if_neg h]

/-- The analytically described emission order is a permutation of
`0, 1, …, size_in_cachelines - 1`: every line of the region occurs
exactly once. -/
theorem areaOffsets_perm (c : CacheDesc) (a : ScrubArea) :
    List.Perm (areaOffsets c a) (List.range (c.sizeInCachelines a)) := by
  rw [List.perm_iff_count]
  intro m
  rw [areaOffsets, count_restGroups c a m c.cacheLines 0 (by omega), count_range_eq]
  simp

theorem areaOffsets_length (c : CacheDesc) (a : ScrubArea) :
    (areaOffsets c a).length = c.sizeInCachelines a :=
  (areaOffsets_perm c a).length_eq.trans (List.length_range _)

/-- The complete emission of the embedded `ScrubAreaIterator` equals the
analytic list `areaAddrs`. -/
theorem scrubAreaIterAll_eq (c : CacheDesc) (a : ScrubArea) :
    scrubAreaIterAll c a = areaAddrs c a := by
  have h0 : remainingOffsets c a 0 0 = areaOffsets c a := (restGroups_eq c a 0).symm
  have hlen : (remainingOffsets c a 0 0).length < c.sizeInCachelines a + 1 := by
    rw [h0, areaOffsets_length]
    omega
  rw [scrubAreaIterAll, areaAddrs,
    runScrubArea_eq c a (c.sizeInCachelines a + 1) 0 0 (Nat.zero_le _) hlen, h0]

/-- Unfolding equation for `memoryScrubberNext` on reachable states. -/
theorem memoryScrubberNext_eq (c : CacheDesc) (areas : List ScrubArea)
    {i : Nat} (inner : Option ScrubAreaIterState) (hi : i ≤ areas.length) :
    memoryScrubberNext c areas ⟨i, inner⟩ =
      if i = areas.length then none
      else
        match areas[i]? with
        | none => none
        | some a =>
          match scrubAreaNext c a (inner.getD ⟨0, 0⟩) with
          | some ps => some (ps.1, ⟨i, some ps.2⟩)
          | none => memoryScrubberNext c areas ⟨i + 1, none⟩ := by
  have h1 : areas.length + 1 - i = (areas.length - i) + 1 := by omega
  have h2 : areas.length + 1 - (i + 1) = areas.length - i := by omega
  simp only [memoryScrubberNext, h1, h2, memoryScrubberNextGo]

theorem areaAddrs_eq_remaining (c : CacheDesc) (a : ScrubArea) :
    areaAddrs c a =
      (remainingOffsets c a 0 0).map fun m => a.start + m * c.cachelineSize := by
  rw [areaAddrs, areaOffsets, restGroups_eq]

theorem remainingMS_some (c : CacheDesc) (areas : List ScrubArea)
    {i : Nat} (hi : i < areas.length) (t : ScrubAreaIterState) :
    remainingMS c areas ⟨i, some t⟩ =
      ((remainingOffsets c areas[i] t.index t.offset).map
          fun m => areas[i].start + m * c.cachelineSize) ++
        (areas.drop (i + 1)).flatMap fun x => areaAddrs c x := by
  rw [remainingMS]
  simp only [List.getElem?_eq_getElem hi]

theorem remainingMS_none (c : CacheDesc) (areas : List ScrubArea)
    {i : Nat} (hi : i < areas.length) :
    remainingMS c areas ⟨i, none⟩ =
      remainingMS c areas ⟨i, some ⟨0, 0⟩⟩ := by
  rw [remainingMS_some c areas hi, remainingMS]
  show (areas.drop i).flatMap (fun a => areaAddrs c a) = _
  rw [List.drop_eq_getElem_cons hi, List.flatMap_cons, areaAddrs_eq_remaining]

/-- Step characterisation of `MemoryScrubberIterator::next` on reachable
states: `None` exactly when nothing remains, else the head of the
remaining list, moving to a state whose remaining list is the tail. -/
theorem memoryScrubberNext_spec (c : CacheDesc) (areas : List ScrubArea) :
    ∀ n s, areas.length - s.index ≤ n → wfMS c areas s →
      (remainingMS c areas s = [] → memoryScrubberNext c areas s = none) ∧
      (∀ p rest, remainingMS c areas s = p :: rest →
        ∃ s', memoryScrubberNext c areas s = some (p, s') ∧
          wfMS c areas s' ∧ remainingMS c areas s' = rest) := by
  intro n
  induction n with
  | zero =>
    intro s hn hwf
    obtain ⟨i, inner⟩ := s
    have hi : i = areas.length := by
      have := hwf.1
      simp only at this hn ⊢
      omega
    subst hi
    cases inner with
    | some t => exact absurd (hwf.2 t rfl).1 (lt_irrefl _)
    | none =>
      constructor
      · intro _
        rw [memoryScrubberNext_eq c areas none le_rfl, if_pos rfl]
      · intro p rest hpr
        rw [remainingMS] at hpr
        simp only [List.drop_length, List.flatMap_nil] at hpr
        cases hpr
  | succ n ih =>
    intro s hn hwf
    obtain ⟨i, inner⟩ := s
    by_cases hiL : i = areas.length
    · subst hiL
      cases inner with
      | some t => exact absurd (hwf.2 t rfl).1 (lt_irrefl _)
      | none =>
        constructor
        · intro _
          rw [memoryScrubberNext_eq c areas none le_rfl, if_pos rfl]
        · intro p rest hpr
          rw [remainingMS] at hpr
          simp only [List.drop_length, List.flatMap_nil] at hpr
          cases hpr
    · have hi : i < areas.length := lt_of_le_of_ne hwf.1 hiL
      have hn' : areas.length - i ≤ n + 1 := hn
      -- Reduce both inner cases to one computation on `t`.
      have htb : ∀ t : ScrubAreaIterState, inner = some t → t.index ≤ c.cacheLines :=
        fun t ht => (hwf.2 t ht).2
      have hrw : remainingMS c areas ⟨i, inner⟩ =
          ((remainingOffsets c areas[i] (inner.getD ⟨0, 0⟩).index
              (inner.getD ⟨0, 0⟩).offset).map
            fun m => areas[i].start + m * c.cachelineSize) ++
          (areas.drop (i + 1)).flatMap fun x => areaAddrs c x := by
        cases inner with
        | none =>
          rw [remainingMS_none c areas hi, remainingMS_some c areas hi]
          rfl
        | some t =>
          rw [remainingMS_some c areas hi]
          rfl
      have htL : (inner.getD ⟨0, 0⟩).index ≤ c.cacheLines := by
        cases inner with
        | none => exact Nat.zero_le _
        | some t => exact htb t rfl
      have hnext0 : memoryScrubberNext c areas ⟨i, inner⟩ =
          match scrubAreaNext c areas[i] (inner.getD ⟨0, 0⟩) with
          | some ps => some (ps.1, ⟨i, some ps.2⟩)
          | none => memoryScrubberNext c areas ⟨i + 1, none⟩ := by
        rw [memoryScrubberNext_eq c areas inner hwf.1, if_neg hiL]
        simp only [List.getElem?_eq_getElem hi]
      cases hrem : remainingOffsets c areas[i] (inner.getD ⟨0, 0⟩).index
          (inner.getD ⟨0, 0⟩).offset with
      | nil =>
        -- Current region exhausted: step to the next region.
        have hanone := (scrubAreaNext_spec c areas[i]
          (c.cacheLines - (inner.getD ⟨0, 0⟩).index) _ _ le_rfl htL).1 hrem
        have hskip : memoryScrubberNext c areas ⟨i, inner⟩ =
            memoryScrubberNext c areas ⟨i + 1, none⟩ := by
          rw [hnext0]
          have he : scrubAreaNext c areas[i]
              ⟨(inner.getD ⟨0, 0⟩).index, (inner.getD ⟨0, 0⟩).offset⟩ =
              scrubAreaNext c areas[i] (inner.getD ⟨0, 0⟩) := rfl
          rw [← he] at *
          rw [hanone]
        have hsame : remainingMS c areas ⟨i, inner⟩ =
            remainingMS c areas ⟨i + 1, none⟩ := by
          rw [hrw, hrem, List.map_nil, List.nil_append, remainingMS]
        have hwf' : wfMS c areas ⟨i + 1, none⟩ :=
          ⟨show i + 1 ≤ areas.length by omega, fun t ht => by cases ht⟩
        have := ih ⟨i + 1, none⟩ (show areas.length - (i + 1) ≤ n by omega) hwf'
        rw [hskip, hsame]
        exact this
      | cons m rest0 =>
        obtain ⟨k', o', hstep, hk', hrest0⟩ := (scrubAreaNext_spec c areas[i]
          (c.cacheLines - (inner.getD ⟨0, 0⟩).index) _ _ le_rfl htL).2 m rest0 hrem
        have hnext : memoryScrubberNext c areas ⟨i, inner⟩ =
            some (areas[i].start + m * c.cachelineSize, ⟨i, some ⟨k', o'⟩⟩) := by
          rw [hnext0]
          have he : scrubAreaNext c areas[i]
              ⟨(inner.getD ⟨0, 0⟩).index, (inner.getD ⟨0, 0⟩).offset⟩ =
              scrubAreaNext c areas[i] (inner.getD ⟨0, 0⟩) := rfl
          rw [← he] at *
          rw [hstep]
        constructor
        · intro hpr
          rw [hrw, hrem] at hpr
          cases hpr
        · intro p rest hpr
          rw [hrw, hrem, List.map_cons, List.cons_append] at hpr
          injection hpr with hp hrest
          refine ⟨⟨i, some ⟨k', o'⟩⟩, ?_, ⟨show i ≤ areas.length by omega, ?_⟩, ?_⟩
          · rw [hnext, hp]
          · intro t ht
            injection ht with ht
            subst ht
            exact ⟨hi, hk'⟩
          · rw [remainingMS_some c areas hi, hrest0, ← hrest]

/-- Running the embedded `MemoryScrubberIterator` from a reachable state
with sufficient fuel yields exactly the remaining addresses. -/
theorem runMemoryScrubber_eq (c : CacheDesc) (areas : List ScrubArea) :
    ∀ fuel s, wfMS c areas s → (remainingMS c areas s).length < fuel →
      runMemoryScrubber c areas fuel s = remainingMS c areas s := by
  intro fuel
  induction fuel with
  | zero => intro s _ hlen; omega
  | succ fuel ih =>
    intro s hwf hlen
    cases hrem : remainingMS c areas s with
    | nil =>
      have hnone := (memoryScrubberNext_spec c areas
        (areas.length - s.index) s le_rfl hwf).1 hrem
      rw [runMemoryScrubber, hnone]
    | cons p rest =>
      obtain ⟨s', hnext, hwf', hrest⟩ := (memoryScrubberNext_spec c areas
        (areas.length - s.index) s le_rfl hwf).2 p rest hrem
      have hlen' : (remainingMS c areas s').length < fuel := by
        rw [hrem] at hlen
        rw [hrest]
        simp only [List.length_cons] at hlen
        omega
      rw [runMemoryScrubber, hnext]
      show p :: runMemoryScrubber c areas fuel s' = p :: rest
      rw [ih s' hwf' hlen', hrest]

theorem wfMS_init (c : CacheDesc) (areas : List ScrubArea) :
    wfMS c areas ⟨0, none⟩ :=
  ⟨Nat.zero_le _, fun t ht => by cases ht⟩

theorem remainingMS_init (c : CacheDesc) (areas : List ScrubArea) :
    remainingMS c areas ⟨0, none⟩ = areas.flatMap fun a => areaAddrs c a := by
  rw [remainingMS]
  show (areas.drop 0).flatMap (fun a => areaAddrs c a) = _
  rw [List.drop_zero]

theorem flatMap_areaAddrs_length (c : CacheDesc) (areas : List ScrubArea) :
    (areas.flatMap fun a => areaAddrs c a).length = totalLines c areas := by
  have h : (List.length ∘ fun a : ScrubArea => areaAddrs c a) =
      fun a => c.sizeInCachelines a := by
    funext a
    simp only [Function.comp_apply, areaAddrs, List.length_map, areaOffsets_length]
  rw [List.length_flatMap, h, totalLines]

/-- The complete emission of a fresh `MemoryScrubberIterator` is the
concatenation, in list order, of the per-region emissions. -/
theorem memoryScrubberIterAll_eq (c : CacheDesc) (areas : List ScrubArea) :
    memoryScrubberIterAll c areas = areas.flatMap fun a => areaAddrs c a := by
  have hlen : (remainingMS c areas ⟨0, none⟩).length < totalLines c areas + 1 := by
    rw [remainingMS_init, flatMap_areaAddrs_length]
    omega
  rw [memoryScrubberIterAll,
    runMemoryScrubber_eq c areas _ _ (wfMS_init c areas) hlen, remainingMS_init]

theorem stRem_none (c : CacheDesc) (areas : List ScrubArea) :
    stRem c areas none 0 :=
  ⟨Nat.zero_le _, Or.inl rfl⟩

/-- One pass of the scrub loop emits the cycle element at position
`j mod total` and advances the position by one, restarting a fresh
iterator at the wrap. -/
theorem scrubStep_stRem (c : CacheDesc) (areas : List ScrubArea)
    (hne : (areas.flatMap fun a => areaAddrs c a) ≠ [])
    {st : Option MemoryScrubberIterState} {j : Nat}
    (h : stRem c areas st j) :
    ∃ st', scrubStep c areas st =
        some ((areas.flatMap fun a => areaAddrs c a).getD
          (j % (areas.flatMap fun a => areaAddrs c a).length) 0, st') ∧
      stRem c areas st'
        (j % (areas.flatMap fun a => areaAddrs c a).length + 1) := by
  set FL := areas.flatMap fun a => areaAddrs c a with hFL
  have hT : 0 < FL.length := List.length_pos.2 hne
  have hfresh : ∃ s', memoryScrubberNext c areas ⟨0, none⟩ =
      some (FL.getD 0 0, s') ∧ wfMS c areas s' ∧
      remainingMS c areas s' = FL.drop 1 := by
    have h0 : remainingMS c areas ⟨0, none⟩ = FL := remainingMS_init c areas
    cases hFLc : FL with
    | nil => exact absurd hFLc hne
    | cons p rest =>
      obtain ⟨s', hnext, hwf', hrest⟩ := (memoryScrubberNext_spec c areas
        areas.length ⟨0, none⟩ (by omega) (wfMS_init c areas)).2 p rest
        (by rw [h0, hFLc])
      refine ⟨s', ?_, hwf', ?_⟩
      · rw [hnext]
        rfl
      · rw [hrest]
        rfl
  obtain ⟨sf, hfnext, hfwf, hfrem⟩ := hfresh
  cases st with
  | none =>
    have hj0 : j % FL.length = 0 := by
      rcases h.2 with hj | hj
      · rw [hj, Nat.zero_mod]
      · rw [hj, Nat.mod_self]
    refine ⟨some sf, ?_, ?_⟩
    · rw [hj0]
      show (memoryScrubberNext c areas ⟨0, none⟩).map
        (fun ps => (ps.1, some ps.2)) = _
      rw [hfnext]
      rfl
    · rw [hj0]
      exact ⟨hT, hfwf, hfrem⟩
  | some s =>
    obtain ⟨hj, hwf, hrem⟩ := h
    rw [← hFL] at hj
    by_cases hjT : j < FL.length
    · have hjmod : j % FL.length = j := Nat.mod_eq_of_lt hjT
      have hdrop : FL.drop j = FL.getD j 0 :: FL.drop (j + 1) := by
        rw [List.drop_eq_getElem_cons hjT, List.getD_eq_getElem FL 0 hjT]
      obtain ⟨s', hnext, hwf', hrest⟩ := (memoryScrubberNext_spec c areas
        (areas.length - s.index) s le_rfl hwf).2 _ _ (hrem.trans hdrop)
      refine ⟨some s', ?_, ?_⟩
      · rw [hjmod]
        simp only [scrubStep]
        rw [hnext]
      · rw [hjmod]
        refine ⟨?_, hwf', hrest⟩
        rw [← hFL]
        omega
    · have hjeq : j = FL.length := by omega
      have hjmod : j % FL.length = 0 := by
        rw [hjeq, Nat.mod_self]
      have hempty : remainingMS c areas s = [] := by
        rw [hrem, hjeq, List.drop_length]
      have hnone := (memoryScrubberNext_spec c areas
        (areas.length - s.index) s le_rfl hwf).1 hempty
      refine ⟨some sf, ?_, ?_⟩
      · rw [hjmod]
        simp only [scrubStep]
        rw [hnone, hfnext]
        rfl
      · rw [hjmod]
        exact ⟨hT, hfwf, hfrem⟩

theorem scrubLines_succ (c : CacheDesc) (areas : List ScrubArea)
    {st : Option MemoryScrubberIterState} {p : Addr}
    {st1 : Option MemoryScrubberIterState} (k : Nat)
    (hstep : scrubStep c areas st = some (p, st1)) :
    scrubLines c areas (k + 1) st =
      (scrubLines c areas k st1).map fun r => (p :: r.1, r.2) := by
  simp only [scrubLines]
  rw [hstep]

theorem scrubLines_succ_none (c : CacheDesc) (areas : List ScrubArea)
    {st : Option MemoryScrubberIterState} (k : Nat)
    (hstep : scrubStep c areas st = none) :
    scrubLines c areas (k + 1) st = none := by
  simp only [scrubLines]
  rw [hstep]

/-- Scrubbing `k` lines from any position in the cycle emits the cycle
elements at positions `j, j+1, …, j+k-1`, all taken modulo the total
number of lines, wrapping back to the start of the first region. -/
theorem scrubLines_stRem (c : CacheDesc) (areas : List ScrubArea)
    (hne : (areas.flatMap fun a => areaAddrs c a) ≠ []) :
    ∀ k j st, stRem c areas st j →
      ∃ st' j', scrubLines c areas k st =
          some ((List.range k).map fun t =>
            (areas.flatMap fun a => areaAddrs c a).getD
              ((j + t) % (areas.flatMap fun a => areaAddrs c a).length) 0, st') ∧
        stRem c areas st' j' ∧
        j' % (areas.flatMap fun a => areaAddrs c a).length =
          (j + k) % (areas.flatMap fun a => areaAddrs c a).length := by
  intro k
  induction k with
  | zero =>
    intro j st h
    exact ⟨st, j, by rw [List.range_zero, List.map_nil]; rfl, h, by rw [Nat.add_zero]⟩
  | succ k ih =>
    intro j st h
    obtain ⟨st1, hstep, h1⟩ := scrubStep_stRem c areas hne h
    obtain ⟨st', j', hlines, h', hj'⟩ := ih _ st1 h1
    refine ⟨st', j', ?_, h', ?_⟩
    · have hlist : ((areas.flatMap fun a => areaAddrs c a).getD
            (j % (areas.flatMap fun a => areaAddrs c a).length) 0) ::
          ((List.range k).map fun t =>
            (areas.flatMap fun a => areaAddrs c a).getD
              ((j % (areas.flatMap fun a => areaAddrs c a).length + 1 + t) %
                (areas.flatMap fun a => areaAddrs c a).length) 0) =
          (List.range (k + 1)).map fun t =>
            (areas.flatMap fun a => areaAddrs c a).getD
              ((j + t) % (areas.flatMap fun a => areaAddrs c a).length) 0 := by
        rw [List.range_succ_eq_map, List.map_cons, List.map_map]
        congr 1
        apply List.map_congr_left
        intro t _
        simp only [Function.comp_apply, Nat.succ_eq_add_one]
        apply congrArg
          (fun z => (areas.flatMap fun a => areaAddrs c a).getD z 0)
        rw [Nat.add_assoc, Nat.mod_add_mod]
        congr 1
        omega
      rw [scrubLines_succ c areas k hstep, hlines, ← hlist]
      rfl
    · rw [hj', Nat.add_assoc, Nat.mod_add_mod]
      congr 1
      omega

/-- Splitting a scrub of `k1 + k2` lines: the touches concatenate and
the final state is that of the second half, provided both halves return.
This is the core of resumability. -/
theorem scrubLines_add_some (c : CacheDesc) (areas : List ScrubArea)
    {k2 : Nat} {l2 : List Addr} {st2 : Option MemoryScrubberIterState} :
    ∀ k1 st l1 st1, scrubLines c areas k1 st = some (l1, st1) →
      scrubLines c areas k2 st1 = some (l2, st2) →
      scrubLines c areas (k1 + k2) st = some (l1 ++ l2, st2) := by
  intro k1
  induction k1 with
  | zero =>
    intro st l1 st1 h1 h2
    rw [scrubLines] at h1
    injection h1 with h1
    injection h1 with hl hst
    rw [Nat.zero_add, ← hl, List.nil_append, hst]
    exact h2
  | succ k1 ih =>
    intro st l1 st1 h1 h2
    cases hstep : scrubStep c areas st with
    | none =>
      rw [scrubLines_succ_none c areas k1 hstep] at h1
      cases h1
    | some pr =>
      obtain ⟨p, stm⟩ := pr
      rw [scrubLines_succ c areas k1 hstep] at h1
      obtain ⟨r, hr, hfr⟩ := Option.map_eq_some'.1 h1
      obtain ⟨lm, stm'⟩ := r
      have hl1 : l1 = p :: lm := by
        have := congrArg Prod.fst hfr
        exact this.symm
      have hst1 : st1 = stm' := by
        have := congrArg Prod.snd hfr
        exact this.symm
      subst hl1
      subst hst1
      have e : k1 + 1 + k2 = (k1 + k2) + 1 := by omega
      rw [e, scrubLines_succ c areas (k1 + k2) hstep,
        ih stm lm st1 hr h2]
      rfl

/-- If the first half of a split scrub diverges, so does the whole. -/
theorem scrubLines_add_none (c : CacheDesc) (areas : List ScrubArea)
    {k2 : Nat} :
    ∀ k1 st, scrubLines c areas k1 st = none →
      scrubLines c areas (k1 + k2) st = none := by
  intro k1
  induction k1 with
  | zero =>
    intro st h1
    rw [scrubLines] at h1
    cases h1
  | succ k1 ih =>
    intro st h1
    cases hstep : scrubStep c areas st with
    | none =>
      have e : k1 + 1 + k2 = (k1 + k2) + 1 := by omega
      rw [e, scrubLines_succ_none c areas (k1 + k2) hstep]
    | some pr =>
      obtain ⟨p, stm⟩ := pr
      rw [scrubLines_succ c areas k1 hstep] at h1
      have hm : scrubLines c areas k1 stm = none := by
        cases hm : scrubLines c areas k1 stm with
        | none => rfl
        | some r =>
          rw [hm] at h1
          cases h1
      have e : k1 + 1 + k2 = (k1 + k2) + 1 := by omega
      rw [e, scrubLines_succ c areas (k1 + k2) hstep, ih stm hm]
      rfl

/-- If the second half of a split scrub diverges, so does the whole. -/
theorem scrubLines_add_none2 (c : CacheDesc) (areas : List ScrubArea)
    {k2 : Nat} :
    ∀ k1 st l1 st1, scrubLines c areas k1 st = some (l1, st1) →
      scrubLines c areas k2 st1 = none →
      scrubLines c areas (k1 + k2) st = none := by
  intro k1
  induction k1 with
  | zero =>
    intro st l1 st1 h1 h2
    rw [scrubLines] at h1
    injection h1 with h1
    injection h1 with hl hst
    rw [Nat.zero_add, hst]
    exact h2
  | succ k1 ih =>
    intro st l1 st1 h1 h2
    cases hstep : scrubStep c areas st with
    | none =>
      rw [scrubLines_succ_none c areas k1 hstep] at h1
      cases h1
    | some pr =>
      obtain ⟨p, stm⟩ := pr
      rw [scrubLines_succ c areas k1 hstep] at h1
      obtain ⟨r, hr, hfr⟩ := Option.map_eq_some'.1 h1
      obtain ⟨lm, stm'⟩ := r
      have hst1 : st1 = stm' := by
        have := congrArg Prod.snd hfr
        exact this.symm
      subst hst1
      have e : k1 + 1 + k2 = (k1 + k2) + 1 := by omega
      rw [e, scrubLines_succ c areas (k1 + k2) hstep,
        ih stm lm st1 hr h2]
      rfl

/-! ### Arithmetic reformulations of the bit-twiddling in the source -/

theorem and_cachelineSize_mask (c : CacheDesc) (n : Nat) :
    n &&& (c.cachelineSize - 1) = n % c.cachelineSize := by
  rw [cachelineSize_eq, Nat.and_pow_two_sub_one_eq_mod]

theorem shiftRight_cachelineWidth (c : CacheDesc) (n : Nat) :
    n >>> c.cachelineWidth = n / c.cachelineSize := by
  rw [cachelineSize_eq, Nat.shiftRight_eq_div_pow]

theorem cacheIndex_eq_mod (c : CacheDesc) (p : Addr) :
    c.cacheIndex p = (p >>> c.cachelineWidth) % c.cacheLines := by
  have h : (1 : Nat) <<< c.cacheIndexWidth = 2 ^ c.cacheIndexWidth := by
    rw [Nat.shiftLeft_eq, one_mul]
  rw [CacheDesc.cacheIndex, h, Nat.and_pow_two_sub_one_eq_mod, cacheLines_eq]

/-! ### Non-divergence of the restart loop for validated scrubbers -/

theorem memoryScrubberNew_ne_nil (c : CacheDesc) (areas : List ScrubArea)
    (hv : memoryScrubberNew c areas = .ok ()) : areas ≠ [] := by
  intro hc
  subst hc
  simp [memoryScrubberNew] at hv

theorem flatMap_areaAddrs_ne_nil (c : CacheDesc) {areas : List ScrubArea}
    (hne : areas ≠ [])
    (hpos : ∀ a ∈ areas, 0 < c.sizeInCachelines a) :
    (areas.flatMap fun a => areaAddrs c a) ≠ [] := by
  cases areas with
  | nil => exact absurd rfl hne
  | cons a rest =>
    intro hc
    rw [List.flatMap_cons] at hc
    have h2 := (List.append_eq_nil.1 hc).1
    have h3 := congrArg List.length h2
    rw [areaAddrs, List.length_map, areaOffsets_length, List.length_nil] at h3
    have := hpos a (List.mem_cons_self a rest)
    omega

/-- For a validated scrubber the restart loop of `scrub` always produces
an address: the inner loop of `MemoryScrubber::scrub` terminates. -/
theorem scrubStep_isSome (c : CacheDesc) (areas : List ScrubArea)
    (hne : (areas.flatMap fun a => areaAddrs c a) ≠ [])
    (st : Option MemoryScrubberIterState) :
    ∃ pr, scrubStep c areas st = some pr := by
  have hfresh : ∃ pr, memoryScrubberNext c areas ⟨0, none⟩ = some pr := by
    cases hFLc : areas.flatMap fun a => areaAddrs c a with
    | nil => exact absurd hFLc hne
    | cons p rest =>
      obtain ⟨s', hnext, _, _⟩ := (memoryScrubberNext_spec c areas
        areas.length ⟨0, none⟩ (by omega) (wfMS_init c areas)).2 p rest
        (by rw [remainingMS_init, hFLc])
      exact ⟨(p, s'), hnext⟩
  obtain ⟨pr, hpr⟩ := hfresh
  cases st with
  | none =>
    refine ⟨(pr.1, some pr.2), ?_⟩
    simp only [scrubStep]
    rw [hpr]
    rfl
  | some s =>
    cases hnx : memoryScrubberNext c areas s with
    | some pr2 =>
      refine ⟨(pr2.1, some pr2.2), ?_⟩
      simp only [scrubStep]
      rw [hnx]
    | none =>
      refine ⟨(pr.1, some pr.2), ?_⟩
      simp only [scrubStep]
      rw [hnx, hpr]
      rfl

/-- For a validated scrubber, scrubbing any number of lines from any
iterator state terminates with a result. -/
theorem scrubLines_isSome (c : CacheDesc) (areas : List ScrubArea)
    (hne : (areas.flatMap fun a => areaAddrs c a) ≠ []) :
    ∀ k st, ∃ r, scrubLines c areas k st = some r := by
  intro k
  induction k with
  | zero => intro st; exact ⟨([], st), rfl⟩
  | succ k ih =>
    intro st
    obtain ⟨⟨p, st1⟩, hp⟩ := scrubStep_isSome c areas hne st
    obtain ⟨r, hr⟩ := ih st1
    refine ⟨(p :: r.1, r.2), ?_⟩
    rw [scrubLines_succ c areas k hp, hr]
    rfl

theorem reachableState_none (c : CacheDesc) (areas : List ScrubArea) :
    reachableState c areas none :=
  ⟨0, [], rfl⟩

/-! ### Characterisation of the construction-time validation -/

theorem checkScrubArea_ok_iff (c : CacheDesc) (a : ScrubArea) :
    checkScrubArea c a = .ok () ↔
      a.start ≠ a.«end» ∧ a.start % c.cachelineSize = 0 ∧
        a.«end» % c.cachelineSize = c.cachelineSize - 1 := by
  rw [checkScrubArea]
  split_ifs with h1 h2 h3
  · simp only [reduceCtorEq, false_iff]
    intro hc
    exact hc.1 h1
  · rw [and_cachelineSize_mask] at h2
    simp only [reduceCtorEq, false_iff]
    intro hc
    exact h2 hc.2.1
  · rw [and_cachelineSize_mask] at h3
    simp only [reduceCtorEq, false_iff]
    intro hc
    exact h3 hc.2.2
  · rw [and_cachelineSize_mask] at h2 h3
    simp only [true_iff]
    push_neg at h2 h3
    exact ⟨h1, h2, h3⟩

theorem checkScrubAreas_ok_iff (c : CacheDesc) :
    ∀ areas : List ScrubArea, checkScrubAreas c areas = .ok () ↔
      ∀ a ∈ areas, checkScrubArea c a = .ok () := by
  intro areas
  induction areas with
  | nil => simp [checkScrubAreas]
  | cons a rest ih =>
    rw [checkScrubAreas]
    cases hca : checkScrubArea c a with
    | error e =>
      simp only [reduceCtorEq, false_iff]
      intro hc
      have := hc a (List.mem_cons_self a rest)
      rw [hca] at this
      cases this
    | ok u =>
      obtain ⟨⟩ := u
      rw [ih]
      constructor
      · intro h x hx
        rcases List.mem_cons.1 hx with hx | hx
        · rw [hx, hca]
        · exact h x hx
      · intro h x hx
        exact h x (List.mem_cons_of_mem a hx)

/-- Validation succeeds exactly for a non-empty list of regions that are
each non-empty, start-aligned and end-aligned. -/
theorem memoryScrubberNew_ok_iff (c : CacheDesc) (areas : List ScrubArea) :
    memoryScrubberNew c areas = .ok () ↔
      areas ≠ [] ∧ ∀ a ∈ areas,
        a.start ≠ a.«end» ∧ a.start % c.cachelineSize = 0 ∧
          a.«end» % c.cachelineSize = c.cachelineSize - 1 := by
  rw [memoryScrubberNew]
  split_ifs with h0
  · have : areas = [] := List.length_eq_zero.1 h0
    simp [this]
  · rw [checkScrubAreas_ok_iff]
    have hne : areas ≠ [] := by
      intro hc
      rw [hc] at h0
      exact h0 rfl
    simp only [hne, ne_eq, not_false_eq_true, true_and]
    constructor
    · intro h a ha
      exact (checkScrubArea_ok_iff c a).1 (h a ha)
    · intro h a ha
      exact (checkScrubArea_ok_iff c a).2 (h a ha)

/-! ### Claim theorems -/

/-- C1: for a region satisfying Invariants A (aligned start), B (end one
byte before a line boundary) and C (non-empty, here with `start < end`),
a complete `ScrubAreaIterator` iteration emits exactly one address per
cache line of the region (a permutation of
`start, start + cls, …, start + (S-1)·cls`), and every emitted address
is cache-line aligned and lies in `[start, end]`. -/
theorem claim_C1_region_coverage (c : CacheDesc) (a : ScrubArea)
    (hA : a.start % c.cachelineSize = 0)
    (hB : a.«end» % c.cachelineSize = c.cachelineSize - 1)
    (hC : a.start ≠ a.«end») (hlt : a.start < a.«end») :
    List.Perm (scrubAreaIterAll c a)
        ((List.range (c.sizeInCachelines a)).map
          fun m => a.start + m * c.cachelineSize) ∧
      ∀ p ∈ scrubAreaIterAll c a,
        p % c.cachelineSize = 0 ∧ a.start ≤ p ∧ p ≤ a.«end» := by
  constructor
  · rw [scrubAreaIterAll_eq, areaAddrs]
    exact (areaOffsets_perm c a).map _
  · intro p hp
    rw [scrubAreaIterAll_eq, areaAddrs, List.mem_map] at hp
    obtain ⟨m, hm, rfl⟩ := hp
    have hmS : m < c.sizeInCachelines a := by
      rw [(areaOffsets_perm c a).mem_iff, List.mem_range] at hm
      exact hm
    refine ⟨?_, Nat.le_add_right _ _, ?_⟩
    · rw [Nat.add_mul_mod_self_right, hA]
    · have hse : a.start >>> c.cachelineWidth ≤ a.«end» >>> c.cachelineWidth :=
        shiftRight_le_shiftRight c.cachelineWidth (Nat.le_of_lt hlt)
      have hS : c.sizeInCachelines a =
          a.«end» / c.cachelineSize - a.start / c.cachelineSize + 1 := by
        rw [sizeInCachelines_eq c a hse, shiftRight_cachelineWidth,
          shiftRight_cachelineWidth]
      have hq1 : a.start / c.cachelineSize * c.cachelineSize = a.start :=
        Nat.div_mul_cancel (Nat.dvd_of_mod_eq_zero hA)
      have hq2 : a.«end» / c.cachelineSize * c.cachelineSize +
          (c.cachelineSize - 1) = a.«end» := by
        have h := Nat.div_add_mod a.«end» c.cachelineSize
        rw [hB, Nat.mul_comm c.cachelineSize (a.«end» / c.cachelineSize)] at h
        exact h
      have hqle : a.start / c.cachelineSize ≤ a.«end» / c.cachelineSize :=
        Nat.div_le_div_right (Nat.le_of_lt hlt)
      rw [hS] at hmS
      have hm2 : m ≤ a.«end» / c.cachelineSize - a.start / c.cachelineSize :=
        Nat.lt_succ_iff.mp hmS
      have hmle : m * c.cachelineSize ≤
          (a.«end» / c.cachelineSize - a.start / c.cachelineSize) *
            c.cachelineSize :=
        Nat.mul_le_mul_right _ hm2
      have hsub : (a.«end» / c.cachelineSize - a.start / c.cachelineSize) *
          c.cachelineSize =
          a.«end» / c.cachelineSize * c.cachelineSize -
            a.start / c.cachelineSize * c.cachelineSize :=
        Nat.sub_mul _ _ _
      have hqle' : a.start / c.cachelineSize * c.cachelineSize ≤
          a.«end» / c.cachelineSize * c.cachelineSize :=
        Nat.mul_le_mul_right _ hqle
      calc a.start + m * c.cachelineSize
          ≤ a.start + (a.«end» / c.cachelineSize - a.start / c.cachelineSize) *
              c.cachelineSize := Nat.add_le_add_left hmle _
        _ = a.«end» / c.cachelineSize * c.cachelineSize := by
            rw [hsub]
            have h3 : a.start +
                (a.«end» / c.cachelineSize * c.cachelineSize -
                  a.start / c.cachelineSize * c.cachelineSize) =
                a.start / c.cachelineSize * c.cachelineSize +
                  (a.«end» / c.cachelineSize * c.cachelineSize -
                    a.start / c.cachelineSize * c.cachelineSize) := by
              rw [hq1]
            rw [h3]
            exact Nat.add_sub_cancel' hqle'
        _ ≤ a.«end» := Nat.le.intro hq2

/-- Witness for C1 with the spec's standard geometry (16-byte lines,
4 sets) on the 8-line region at `0x1000`. -/
theorem claim_C1_witness :
    List.Perm (scrubAreaIterAll ⟨4, 2⟩ ⟨0x1000, 0x107F⟩)
        ((List.range ((⟨4, 2⟩ : CacheDesc).sizeInCachelines ⟨0x1000, 0x107F⟩)).map
          fun m => (⟨0x1000, 0x107F⟩ : ScrubArea).start +
            m * (⟨4, 2⟩ : CacheDesc).cachelineSize) ∧
      ∀ p ∈ scrubAreaIterAll ⟨4, 2⟩ ⟨0x1000, 0x107F⟩,
        p % (⟨4, 2⟩ : CacheDesc).cachelineSize = 0 ∧
          (⟨0x1000, 0x107F⟩ : ScrubArea).start ≤ p ∧
          p ≤ (⟨0x1000, 0x107F⟩ : ScrubArea).«end» :=
  claim_C1_region_coverage ⟨4, 2⟩ ⟨0x1000, 0x107F⟩ (by decide) (by decide)
    (by decide) (by decide)

/-- C2: the emission of a region is the concatenation of `cache_lines`
groups; group `k` contains exactly the addresses of cache-set residue
`(cache_index(start) + k) mod cache_lines`, and addresses strictly
increase within each group. -/
theorem claim_C2_cache_index_major (c : CacheDesc) (a : ScrubArea)
    (hA : a.start % c.cachelineSize = 0)
    (hB : a.«end» % c.cachelineSize = c.cachelineSize - 1)
    (hC : a.start ≠ a.«end») (hlt : a.start < a.«end») :
    scrubAreaIterAll c a = (List.range c.cacheLines).flatMap (areaGroup c a) ∧
      ∀ k, k < c.cacheLines →
        (∀ p ∈ areaGroup c a k,
          c.cacheIndex p = (c.cacheIndex a.start + k) % c.cacheLines) ∧
        List.Pairwise (· < ·) (areaGroup c a k) := by
  have hL := cacheLines_pos c
  have hcls := cachelineSize_pos c
  constructor
  · rw [scrubAreaIterAll_eq, areaAddrs, areaOffsets, restGroups, Nat.sub_zero,
      List.map_flatMap]
    have hf : (fun d => (groupTail c a (0 + d) 0).map
        fun m => a.start + m * c.cachelineSize) = areaGroup c a := by
      funext d
      rw [Nat.zero_add, areaGroup]
    rw [hf]
  · intro k hk
    constructor
    · intro p hp
      rw [areaGroup, List.mem_map] at hp
      obtain ⟨m, hm, rfl⟩ := hp
      obtain ⟨hmod, hmS⟩ := (mem_groupTail_iff c a hk).1 hm
      rw [cacheIndex_eq_mod, cacheIndex_eq_mod, shiftRight_cachelineWidth,
        shiftRight_cachelineWidth]
      have hdiv : (a.start + m * c.cachelineSize) / c.cachelineSize =
          a.start / c.cachelineSize + m :=
        Nat.add_mul_div_right _ _ hcls
      rw [hdiv, Nat.mod_add_mod]
      have hm' : m = k + m / c.cacheLines * c.cacheLines := by
        have h := Nat.div_add_mod m c.cacheLines
        rw [hmod] at h
        calc m = c.cacheLines * (m / c.cacheLines) + k := h.symm
          _ = k + m / c.cacheLines * c.cacheLines := by
              rw [Nat.mul_comm, Nat.add_comm]
      rw [hm', ← Nat.add_assoc]
      exact Nat.add_mul_mod_self_right _ _ _
    · rw [areaGroup, groupTail, List.map_map]
      refine List.Pairwise.map _ ?_ (List.pairwise_lt_range _)
      intro x y hxy
      simp only [Function.comp_apply]
      have h1 : k + 0 + x * c.cacheLines < k + 0 + y * c.cacheLines :=
        Nat.add_lt_add_left ((Nat.mul_lt_mul_right hL).mpr hxy) _
      have h2 : (k + 0 + x * c.cacheLines) * c.cachelineSize <
          (k + 0 + y * c.cacheLines) * c.cachelineSize :=
        (Nat.mul_lt_mul_right hcls).mpr h1
      exact Nat.add_lt_add_left h2 _

/-- Witness for C2 on the standard geometry. -/
theorem claim_C2_witness :
    (scrubAreaIterAll ⟨4, 2⟩ ⟨0x1000, 0x107F⟩ =
        (List.range (⟨4, 2⟩ : CacheDesc).cacheLines).flatMap
          (areaGroup ⟨4, 2⟩ ⟨0x1000, 0x107F⟩)) ∧
      ∀ k, k < (⟨4, 2⟩ : CacheDesc).cacheLines →
        (∀ p ∈ areaGroup ⟨4, 2⟩ ⟨0x1000, 0x107F⟩ k,
          (⟨4, 2⟩ : CacheDesc).cacheIndex p =
            ((⟨4, 2⟩ : CacheDesc).cacheIndex
                (⟨0x1000, 0x107F⟩ : ScrubArea).start + k) %
              (⟨4, 2⟩ : CacheDesc).cacheLines) ∧
        List.Pairwise (· < ·) (areaGroup ⟨4, 2⟩ ⟨0x1000, 0x107F⟩ k) :=
  claim_C2_cache_index_major ⟨4, 2⟩ ⟨0x1000, 0x107F⟩ (by decide) (by decide)
    (by decide) (by decide)

/-- C5: with 16-byte cache lines and 4 sets, the 8-line region at
`0x1000` is emitted in line order `0, 4, 1, 5, 2, 6, 3, 7`. -/
theorem claim_C5_scenario_S1 :
    scrubAreaIterAll ⟨4, 2⟩ ⟨0x1000, 0x107F⟩ =
      [0, 4, 1, 5, 2, 6, 3, 7].map fun k => 0x1000 + 16 * k := by
  decide

/-- C3, counterexample to the original claim: validation accepts the
reversed one-line region `[0x1010, 0x100F]` (aligned start, aligned end,
start ≠ end), but its `size_in_cachelines` subtraction underflows, the
region contributes no lines, a fresh iterator immediately returns `None`,
and the restart loop inside `scrub` never exits — `scrub(1 · 16)` on this
validated scrubber diverges (`none`) with zero touches instead of
touching exactly one address as the claim requires.  (A debug build
panics at the subtraction instead; either way no `read_cacheline`
happens.) -/
theorem claim_C3_counterexample :
    memoryScrubberNew ⟨4, 2⟩ [⟨0x1010, 0x100F⟩] = Except.ok () ∧
    scrub ⟨4, 2⟩ [⟨0x1010, 0x100F⟩]
      (1 * (⟨4, 2⟩ : CacheDesc).cachelineSize) none = none := by
  decide

/-- C3 (amended): for a scrubber validated from regions that additionally
satisfy `start < end`, `scrub(k · cacheline_bytes)` from a fresh iterator
touches exactly `k` addresses; the `i`-th touch is element `i mod total`
of the full multi-region emission (the concatenation of the per-region
emissions in list order), so after all lines are emitted the next touch
wraps to the first line of the first region. -/
theorem claim_C3_scrub_stream (c : CacheDesc) (areas : List ScrubArea)
    (hv : memoryScrubberNew c areas = Except.ok ())
    (hlt : ∀ a ∈ areas, a.start < a.«end») (k : Nat) :
    memoryScrubberIterAll c areas = (areas.flatMap fun a => areaAddrs c a) ∧
      ∃ st', scrub c areas (k * c.cachelineSize) none =
        some ⟨Except.ok (), (List.range k).map fun i =>
          (memoryScrubberIterAll c areas).getD
            (i % (memoryScrubberIterAll c areas).length) 0, st'⟩ := by
  refine ⟨memoryScrubberIterAll_eq c areas, ?_⟩
  have hne := flatMap_areaAddrs_ne_nil c (memoryScrubberNew_ne_nil c areas hv)
    (fun a ha => sizeInCachelines_pos_of_lt c a (hlt a ha))
  obtain ⟨st', j', hlines, _, _⟩ :=
    scrubLines_stRem c areas hne k 0 none (stRem_none c areas)
  simp only [Nat.zero_add] at hlines
  refine ⟨st', ?_⟩
  have hcond : ¬ ((k * c.cachelineSize) &&& (c.cachelineSize - 1) ≠ 0) := by
    rw [and_cachelineSize_mask, Nat.mul_mod_left]
    intro hc
    exact hc rfl
  have hk : (k * c.cachelineSize) >>> c.cachelineWidth = k := by
    rw [shiftRight_cachelineWidth, Nat.mul_div_cancel _ (cachelineSize_pos c)]
  rw [scrub, if_neg hcond, hk, hlines, memoryScrubberIterAll_eq]
  rfl

/-- Witness for C3 at the standard geometry, three lines. -/
theorem claim_C3_witness :
    memoryScrubberIterAll ⟨4, 2⟩ [⟨0x1000, 0x107F⟩] =
        ([⟨0x1000, 0x107F⟩] : List ScrubArea).flatMap
          (fun a => areaAddrs ⟨4, 2⟩ a) ∧
      ∃ st', scrub ⟨4, 2⟩ [⟨0x1000, 0x107F⟩]
          (3 * (⟨4, 2⟩ : CacheDesc).cachelineSize) none =
        some ⟨Except.ok (), (List.range 3).map fun i =>
          (memoryScrubberIterAll ⟨4, 2⟩ [⟨0x1000, 0x107F⟩]).getD
            (i % (memoryScrubberIterAll ⟨4, 2⟩ [⟨0x1000, 0x107F⟩]).length) 0,
          st'⟩ :=
  claim_C3_scrub_stream ⟨4, 2⟩ [⟨0x1000, 0x107F⟩] (by decide) (by decide) 3

/-- C4: for byte counts that are multiples of the cache-line size,
a single `scrub(n₁ + n₂)` produces exactly the touches of
`scrub(n₁)` followed by `scrub(n₂)` from the same starting state, ending
in the same iterator state. -/
theorem claim_C4_resumable (c : CacheDesc) (areas : List ScrubArea)
    (n1 n2 : Nat) (st : Option MemoryScrubberIterState)
    (h1 : n1 % c.cachelineSize = 0) (h2 : n2 % c.cachelineSize = 0) :
    scrub c areas (n1 + n2) st =
      match scrub c areas n1 st with
      | none => none
      | some o1 =>
        match scrub c areas n2 o1.state with
        | none => none
        | some o2 => some ⟨o2.status, o1.touches ++ o2.touches, o2.state⟩ := by
  have hc1 : ¬ (n1 &&& (c.cachelineSize - 1) ≠ 0) := by
    rw [and_cachelineSize_mask]
    intro hc
    exact hc h1
  have hc2 : ¬ (n2 &&& (c.cachelineSize - 1) ≠ 0) := by
    rw [and_cachelineSize_mask]
    intro hc
    exact hc h2
  have hc12 : ¬ ((n1 + n2) &&& (c.cachelineSize - 1) ≠ 0) := by
    rw [and_cachelineSize_mask, Nat.add_mod, h1, h2]
    intro hc
    exact hc rfl
  have hdiv : (n1 + n2) >>> c.cachelineWidth =
      n1 >>> c.cachelineWidth + n2 >>> c.cachelineWidth := by
    rw [shiftRight_cachelineWidth, shiftRight_cachelineWidth,
      shiftRight_cachelineWidth]
    exact Nat.add_div_of_dvd_right (Nat.dvd_of_mod_eq_zero h1)
  cases hr1 : scrubLines c areas (n1 >>> c.cachelineWidth) st with
  | none =>
    have hs1 : scrub c areas n1 st = none := by
      rw [scrub, if_neg hc1, hr1]
      rfl
    rw [hs1, scrub, if_neg hc12, hdiv,
      scrubLines_add_none c areas _ st hr1]
    rfl
  | some r1 =>
    obtain ⟨l1, st1⟩ := r1
    have hs1 : scrub c areas n1 st = some ⟨Except.ok (), l1, st1⟩ := by
      rw [scrub, if_neg hc1, hr1]
      rfl
    rw [hs1]
    show scrub c areas (n1 + n2) st =
      match scrub c areas n2 st1 with
      | none => none
      | some o2 => some ⟨o2.status, l1 ++ o2.touches, o2.state⟩
    cases hr2 : scrubLines c areas (n2 >>> c.cachelineWidth) st1 with
    | none =>
      have hs2 : scrub c areas n2 st1 = none := by
        rw [scrub, if_neg hc2, hr2]
        rfl
      rw [hs2, scrub, if_neg hc12, hdiv,
        scrubLines_add_none2 c areas _ st l1 st1 hr1 hr2]
      rfl
    | some r2 =>
      obtain ⟨l2, st2⟩ := r2
      have hs2 : scrub c areas n2 st1 = some ⟨Except.ok (), l2, st2⟩ := by
        rw [scrub, if_neg hc2, hr2]
        rfl
      rw [hs2, scrub, if_neg hc12, hdiv,
        scrubLines_add_some c areas _ st l1 st1 hr1 hr2]
      rfl

/-- Witness for C4: splitting an 8-line scrub as 3 + 5 lines. -/
theorem claim_C4_witness :
    (48 % (⟨4, 2⟩ : CacheDesc).cachelineSize = 0) ∧
    (80 % (⟨4, 2⟩ : CacheDesc).cachelineSize = 0) ∧
    scrub ⟨4, 2⟩ [⟨0x1000, 0x107F⟩] (48 + 80) none =
      match scrub ⟨4, 2⟩ [⟨0x1000, 0x107F⟩] 48 none with
      | none => none
      | some o1 =>
        match scrub ⟨4, 2⟩ [⟨0x1000, 0x107F⟩] 80 o1.state with
        | none => none
        | some o2 => some ⟨o2.status, o1.touches ++ o2.touches, o2.state⟩ :=
  ⟨by decide, by decide,
    claim_C4_resumable ⟨4, 2⟩ [⟨0x1000, 0x107F⟩] 48 80 none (by decide)
      (by decide)⟩

/-- C7: a byte count that is not a multiple of the cache-line size makes
`scrub` return `UnalignedSize` with no touches and the iterator state
unchanged. -/
theorem claim_C7_unaligned_size (c : CacheDesc) (areas : List ScrubArea)
    (n : Nat) (st : Option MemoryScrubberIterState)
    (hn : n % c.cachelineSize ≠ 0) :
    scrub c areas n st = some ⟨Except.error Error.UnalignedSize, [], st⟩ := by
  have hc : n &&& (c.cachelineSize - 1) ≠ 0 := by
    rw [and_cachelineSize_mask]
    exact hn
  rw [scrub, if_pos hc]

/-- Witness for C7: `scrub(17)` with 16-byte lines. -/
theorem claim_C7_witness :
    (17 % (⟨4, 2⟩ : CacheDesc).cachelineSize ≠ 0) ∧
    scrub ⟨4, 2⟩ [⟨0x1000, 0x107F⟩] 17 none =
      some ⟨Except.error Error.UnalignedSize, [], none⟩ :=
  ⟨by decide, claim_C7_unaligned_size ⟨4, 2⟩ [⟨0x1000, 0x107F⟩] 17 none
    (by decide)⟩

/-- C10: for a scrubber whose regions pass validation (and in particular
satisfy the alignment invariants with `start < end`), every `scrub` call
with an aligned byte count terminates from every reachable iterator
state: the restart loop cannot spin forever, and the resulting state is
again reachable. -/
theorem claim_C10_scrub_terminates (c : CacheDesc) (areas : List ScrubArea)
    (hv : memoryScrubberNew c areas = Except.ok ())
    (hinv : ∀ a ∈ areas, a.start % c.cachelineSize = 0 ∧
      a.«end» % c.cachelineSize = c.cachelineSize - 1 ∧ a.start < a.«end»)
    (n : Nat) (st : Option MemoryScrubberIterState)
    (hn : n % c.cachelineSize = 0) (hst : reachableState c areas st) :
    ∃ o, scrub c areas n st = some o ∧ o.status = Except.ok () ∧
      reachableState c areas o.state := by
  have hne := flatMap_areaAddrs_ne_nil c (memoryScrubberNew_ne_nil c areas hv)
    (fun a ha => sizeInCachelines_pos_of_lt c a (hinv a ha).2.2)
  obtain ⟨r, hr⟩ := scrubLines_isSome c areas hne (n >>> c.cachelineWidth) st
  obtain ⟨l, st'⟩ := r
  have hc : ¬ (n &&& (c.cachelineSize - 1) ≠ 0) := by
    rw [and_cachelineSize_mask]
    intro hcc
    exact hcc hn
  refine ⟨⟨Except.ok (), l, st'⟩, ?_, rfl, ?_⟩
  · rw [scrub, if_neg hc, hr]
    rfl
  · obtain ⟨k0, l0, h0⟩ := hst
    exact ⟨k0 + n >>> c.cachelineWidth, l0 ++ l,
      scrubLines_add_some c areas k0 none l0 st h0 hr⟩

/-- Witness for C10 at the standard geometry, one line from fresh. -/
theorem claim_C10_witness :
    memoryScrubberNew (⟨4, 2⟩ : CacheDesc) [⟨0x1000, 0x107F⟩] =
        Except.ok () ∧
    (∀ a ∈ ([⟨0x1000, 0x107F⟩] : List ScrubArea),
      a.start % (⟨4, 2⟩ : CacheDesc).cachelineSize = 0 ∧
        a.«end» % (⟨4, 2⟩ : CacheDesc).cachelineSize =
          (⟨4, 2⟩ : CacheDesc).cachelineSize - 1 ∧ a.start < a.«end») ∧
    (16 % (⟨4, 2⟩ : CacheDesc).cachelineSize = 0) ∧
    ∃ o, scrub ⟨4, 2⟩ [⟨0x1000, 0x107F⟩] 16 none = some o ∧
      o.status = Except.ok () ∧
      reachableState ⟨4, 2⟩ [⟨0x1000, 0x107F⟩] o.state :=
  ⟨by decide, by decide, by decide,
    claim_C10_scrub_terminates ⟨4, 2⟩ [⟨0x1000, 0x107F⟩] (by decide)
      (by decide) 16 none (by decide)
      (reachableState_none ⟨4, 2⟩ [⟨0x1000, 0x107F⟩])⟩

theorem checkScrubAreas_first_error (c : CacheDesc) :
    ∀ (areas : List ScrubArea) (e : Error),
      checkScrubAreas c areas = Except.error e →
      ∃ i, ∃ h : i < areas.length,
        (∀ j, ∀ hj : j < i,
          checkScrubArea c (areas.get ⟨j, Nat.lt_trans hj h⟩) = Except.ok ()) ∧
        checkScrubArea c (areas.get ⟨i, h⟩) = Except.error e := by
  intro areas
  induction areas with
  | nil =>
    intro e h
    rw [checkScrubAreas] at h
    cases h
  | cons a rest ih =>
    intro e h
    rw [checkScrubAreas] at h
    cases hca : checkScrubArea c a with
    | error e2 =>
      rw [hca] at h
      injection h with h
      subst h
      refine ⟨0, Nat.succ_pos _, ?_, hca⟩
      intro j hj
      exact absurd hj (Nat.not_lt_zero _)
    | ok u =>
      obtain ⟨⟩ := u
      rw [hca] at h
      obtain ⟨i, hi, hprev, herr⟩ := ih e h
      refine ⟨i + 1, Nat.succ_lt_succ hi, ?_, herr⟩
      intro j hj
      cases j with
      | zero => exact hca
      | succ j2 => exact hprev j2 (Nat.lt_of_succ_lt_succ hj)

theorem checkScrubArea_not_noScrubAreas (c : CacheDesc) (a : ScrubArea) :
    checkScrubArea c a ≠ Except.error Error.NoScrubAreas := by
  rw [checkScrubArea]
  split_ifs <;> intro h <;> cases h

theorem checkScrubAreas_not_noScrubAreas (c : CacheDesc) :
    ∀ areas : List ScrubArea,
      checkScrubAreas c areas ≠ Except.error Error.NoScrubAreas := by
  intro areas
  induction areas with
  | nil =>
    rw [checkScrubAreas]
    intro h
    cases h
  | cons a rest ih =>
    rw [checkScrubAreas]
    cases hca : checkScrubArea c a with
    | error e2 =>
      intro h
      injection h with h
      subst h
      exact checkScrubArea_not_noScrubAreas c a hca
    | ok u => exact ih

theorem checkScrubArea_empty_iff (c : CacheDesc) (a : ScrubArea) :
    checkScrubArea c a = Except.error Error.EmptyScrubArea ↔
      a.start = a.«end» := by
  rw [checkScrubArea]
  simp only [and_cachelineSize_mask]
  split_ifs with h1 h2 h3 <;> simp_all

theorem checkScrubArea_unalignedStart_iff (c : CacheDesc) (a : ScrubArea) :
    checkScrubArea c a = Except.error Error.UnalignedStart ↔
      a.start ≠ a.«end» ∧ a.start % c.cachelineSize ≠ 0 := by
  rw [checkScrubArea]
  simp only [and_cachelineSize_mask]
  split_ifs with h1 h2 h3 <;> simp_all

theorem checkScrubArea_unalignedEnd_iff (c : CacheDesc) (a : ScrubArea) :
    checkScrubArea c a = Except.error Error.UnalignedEnd ↔
      a.start ≠ a.«end» ∧ a.start % c.cachelineSize = 0 ∧
        a.«end» % c.cachelineSize ≠ c.cachelineSize - 1 := by
  rw [checkScrubArea]
  simp only [and_cachelineSize_mask]
  split_ifs with h1 h2 h3 <;> simp_all

/-- C6, counterexample to the claimed check order: the region
`[0x1001, 0x1001]` is empty *and* has a misaligned start; the claim says
Invariant A is checked first, so construction should report
`UnalignedStart`, but the code checks emptiness first and reports
`EmptyScrubArea`. -/
theorem claim_C6_counterexample :
    (0x1001 : Nat) % (⟨4, 2⟩ : CacheDesc).cachelineSize ≠ 0 ∧
    memoryScrubberNew ⟨4, 2⟩ [⟨0x1001, 0x1001⟩] =
      Except.error Error.EmptyScrubArea ∧
    (Except.error Error.EmptyScrubArea : Except Error Unit) ≠
      Except.error Error.UnalignedStart := by
  decide

/-- C6 (amended): construction returns `NoScrubAreas` exactly for the
empty region list, before inspecting any region; otherwise it inspects
regions in the order supplied, checking each region in the order C
(emptiness → `EmptyScrubArea`), A (start misaligned → `UnalignedStart`),
B (end misaligned → `UnalignedEnd`), and fails with the error of the
first failing region, all earlier regions having passed; each per-region
error is produced precisely for its triggering input. -/
theorem claim_C6_validation_order (c : CacheDesc) (areas : List ScrubArea) :
    (memoryScrubberNew c areas = Except.ok () ↔
      areas ≠ [] ∧ ∀ a ∈ areas, a.start ≠ a.«end» ∧
        a.start % c.cachelineSize = 0 ∧
        a.«end» % c.cachelineSize = c.cachelineSize - 1) ∧
    (memoryScrubberNew c areas = Except.error Error.NoScrubAreas ↔
      areas = []) ∧
    (∀ e, memoryScrubberNew c areas = Except.error e →
      e ≠ Error.NoScrubAreas →
      ∃ i, ∃ h : i < areas.length,
        (∀ j, ∀ hj : j < i,
          checkScrubArea c (areas.get ⟨j, Nat.lt_trans hj h⟩) =
            Except.ok ()) ∧
        checkScrubArea c (areas.get ⟨i, h⟩) = Except.error e) ∧
    (∀ a : ScrubArea, checkScrubArea c a = Except.error Error.EmptyScrubArea ↔
      a.start = a.«end») ∧
    (∀ a : ScrubArea, checkScrubArea c a = Except.error Error.UnalignedStart ↔
      a.start ≠ a.«end» ∧ a.start % c.cachelineSize ≠ 0) ∧
    (∀ a : ScrubArea, checkScrubArea c a = Except.error Error.UnalignedEnd ↔
      a.start ≠ a.«end» ∧ a.start % c.cachelineSize = 0 ∧
        a.«end» % c.cachelineSize ≠ c.cachelineSize - 1) := by
  refine ⟨memoryScrubberNew_ok_iff c areas, ?_, ?_,
    checkScrubArea_empty_iff c, checkScrubArea_unalignedStart_iff c,
    checkScrubArea_unalignedEnd_iff c⟩
  · constructor
    · intro h
      rw [memoryScrubberNew] at h
      by_cases h0 : areas.length = 0
      · exact List.length_eq_zero.1 h0
      · rw [if_neg h0] at h
        exact absurd h (checkScrubAreas_not_noScrubAreas c areas)
    · intro h
      subst h
      rfl
  · intro e h hne
    rw [memoryScrubberNew] at h
    by_cases h0 : areas.length = 0
    · rw [if_pos h0] at h
      injection h with h
      exact absurd h.symm hne
    · rw [if_neg h0] at h
      exact checkScrubAreas_first_error c areas e h

/-- C9: validation accepts a reversed region (`end < start`) whose
alignments pass, because no `start ≤ end` check exists; for such a
region the subtraction `end_in_cachelines - start_in_cachelines` inside
`size_in_cachelines` has no non-negative result (it underflows in
`usize`). -/
theorem claim_C9_reversed_region_accepted :
    memoryScrubberNew ⟨4, 2⟩ [⟨0x2000, 0x100F⟩] = Except.ok () ∧
    (⟨0x2000, 0x100F⟩ : ScrubArea).«end» <
      (⟨0x2000, 0x100F⟩ : ScrubArea).start ∧
    (⟨0x2000, 0x100F⟩ : ScrubArea).«end» >>>
        (⟨4, 2⟩ : CacheDesc).cachelineWidth <
      (⟨0x2000, 0x100F⟩ : ScrubArea).start >>>
        (⟨4, 2⟩ : CacheDesc).cachelineWidth := by
  decide

/-- C8: the auto-scrub driver returns success immediately (without
calling `scrub`) when the policy yields zero; on a `scrub` error it
returns that error with no touches recorded and no further work; and a
run whose policy yields the nonzero aligned chunks `desc 0, …,
desc (m-1)` and then zero produces exactly the concatenation of the
touch sequences of the corresponding successive `scrub` calls. -/
theorem claim_C8_autoscrub (c : CacheDesc) (areas : List ScrubArea)
    (desc : Nat → Nat) :
    (∀ i st fuel, desc i = 0 →
      autoscrubLoop c areas desc (fuel + 1) st i = some (Except.ok 0, [])) ∧
    (∀ i st fuel e o, desc i ≠ 0 → scrub c areas (desc i) st = some o →
      o.status = Except.error e →
      autoscrubLoop c areas desc (fuel + 1) st i =
          some (Except.error e, o.touches) ∧
        o.touches = [] ∧ o.state = st) ∧
    (∀ m fuel, memoryScrubberNew c areas = Except.ok () → desc m = 0 →
      (∀ i, i < m → desc i ≠ 0 ∧ desc i % c.cachelineSize = 0) → m < fuel →
      autoscrub c areas desc fuel =
        (scrubCalls c areas ((List.range m).map desc) none).map
          fun r => (Except.ok 0, r.1)) := by
  refine ⟨?_, ?_, ?_⟩
  · intro i st fuel h
    simp [autoscrubLoop, h]
  · intro i st fuel e o hne hscrub hstat
    obtain ⟨stat, tchs, stt⟩ := o
    simp only at hstat
    subst hstat
    refine ⟨?_, ?_⟩
    · simp only [autoscrubLoop]
      rw [if_neg hne, hscrub]
    · by_cases hal : desc i &&& (c.cachelineSize - 1) ≠ 0
      · rw [scrub, if_pos hal] at hscrub
        injection hscrub with hscrub
        injection hscrub with hst htch hstt
        exact ⟨htch.symm, hstt.symm⟩
      · rw [scrub, if_neg hal] at hscrub
        obtain ⟨r, _, hfr⟩ := Option.map_eq_some'.1 hscrub
        injection hfr with hst _ _
        cases hst
  · intro m fuel hv hstop hok hfuel
    have main : ∀ m2 i st fuel2, desc (i + m2) = 0 →
        (∀ t, t < m2 → desc (i + t) ≠ 0 ∧
          desc (i + t) % c.cachelineSize = 0) →
        m2 < fuel2 →
        autoscrubLoop c areas desc fuel2 st i =
          (scrubCalls c areas
              ((List.range m2).map fun t => desc (i + t)) st).map
            fun r => (Except.ok 0, r.1) := by
      intro m2
      induction m2 with
      | zero =>
        intro i st fuel2 hstop2 hok2 hf2
        cases fuel2 with
        | zero => omega
        | succ f =>
          have h0 : desc i = 0 := by
            rw [← Nat.add_zero i]
            exact hstop2
          simp [autoscrubLoop, h0, scrubCalls]
      | succ m2 ih =>
        intro i st fuel2 hstop2 hok2 hf2
        cases fuel2 with
        | zero => omega
        | succ f =>
          obtain ⟨hne0, hal0⟩ := hok2 0 (Nat.succ_pos _)
          rw [Nat.add_zero] at hne0 hal0
          have hcond : ¬ (desc i &&& (c.cachelineSize - 1) ≠ 0) := by
            rw [and_cachelineSize_mask]
            intro hc
            exact hc hal0
          cases hsl : scrubLines c areas (desc i >>> c.cachelineWidth) st with
          | none =>
            have hscrN : scrub c areas (desc i) st = none := by
              rw [scrub, if_neg hcond, hsl]
              rfl
            have hloopN : autoscrubLoop c areas desc (f + 1) st i = none := by
              simp only [autoscrubLoop]
              rw [if_neg hne0, hscrN]
            have hcallsN : scrubCalls c areas
                ((List.range (m2 + 1)).map fun t => desc (i + t)) st =
                none := by
              simp only [List.range_succ_eq_map, List.map_cons, List.map_map,
                Nat.add_zero]
              rw [scrubCalls, hscrN]
            rw [hloopN, hcallsN]
            rfl
          | some r =>
          obtain ⟨l, st'⟩ := r
          have hscr : scrub c areas (desc i) st =
              some ⟨Except.ok (), l, st'⟩ := by
            rw [scrub, if_neg hcond, hsl]
            rfl
          have hloop : autoscrubLoop c areas desc (f + 1) st i =
              (autoscrubLoop c areas desc f st' (i + 1)).map
                fun r => (r.1, l ++ r.2) := by
            simp only [autoscrubLoop]
            rw [if_neg hne0, hscr]
          have hfun : (fun t => desc (i + Nat.succ t)) =
              fun t => desc (i + 1 + t) := by
            funext t
            congr 1
            omega
          have hREST : (List.range m2).map
                ((fun t => desc (i + t)) ∘ Nat.succ) =
              (List.range m2).map fun t => desc (i + 1 + t) := by
            apply List.map_congr_left
            intro t _
            simp only [Function.comp_apply]
            congr 1
            omega
          have hcalls : scrubCalls c areas
                ((List.range (m2 + 1)).map fun t => desc (i + t)) st =
              (scrubCalls c areas
                  ((List.range m2).map fun t => desc (i + 1 + t)) st').map
                fun r => (l ++ r.1, r.2) := by
            simp only [List.range_succ_eq_map, List.map_cons, List.map_map,
              Nat.add_zero]
            rw [scrubCalls, hscr, hREST]
          have hstop3 : desc (i + 1 + m2) = 0 := by
            have he : i + 1 + m2 = i + (m2 + 1) := by omega
            rw [he]
            exact hstop2
          have hok3 : ∀ t, t < m2 → desc (i + 1 + t) ≠ 0 ∧
              desc (i + 1 + t) % c.cachelineSize = 0 := by
            intro t ht
            have he : i + 1 + t = i + (t + 1) := by omega
            rw [he]
            exact hok2 (t + 1) (Nat.succ_lt_succ ht)
          rw [hloop, ih (i + 1) st' f hstop3 hok3 (by omega), hcalls,
            Option.map_map, Option.map_map]
          congr 1
    have hthis := main m 0 none fuel
      (by rw [Nat.zero_add]; exact hstop)
      (fun t ht => by rw [Nat.zero_add]; exact hok t ht) hfuel
    have hfun0 : (fun t => desc (0 + t)) = desc := by
      funext t
      rw [Nat.zero_add]
    rw [hfun0] at hthis
    simp only [autoscrub]
    rw [hv]
    exact hthis

/-- Witness for C8: a policy that immediately returns zero makes the
driver loop stop with success and no touches. -/
theorem claim_C8_witness :
    autoscrubLoop ⟨4, 2⟩ [⟨0x1000, 0x107F⟩] (fun _ => 0) 1 none 0 =
      some (Except.ok 0, []) :=
  (claim_C8_autoscrub ⟨4, 2⟩ [⟨0x1000, 0x107F⟩] fun _ => 0).1 0 none 0 rfl

/-- Witness for C6: the `NoScrubAreas` characterisation applied to a
concrete one-region list. -/
theorem claim_C6_witness :
    memoryScrubberNew (⟨4, 2⟩ : CacheDesc) [⟨0x1001, 0x1001⟩] =
        Except.error Error.NoScrubAreas ↔
      ([⟨0x1001, 0x1001⟩] : List ScrubArea) = [] :=
  (claim_C6_validation_order ⟨4, 2⟩ [⟨0x1001, 0x1001⟩]).2.1

end MemScrub

